import Mathlib

/-! Wordle solver: constraint state, feedback model and scoring.

A shallow embedding of `src/wordle.cpp`.

* A `std::string` is a `List Char`; `s[i]` is `charAt s i`, which reads the
  terminating `'\0'` at and past the end of the string.
* `std::set<char>` is a `Finset Char`: the code only inserts, erases, tests
  membership and checks a property of every element.
* `std::vector<Result>` is a `List Result`; `result[i]` is read with `result[i]?`,
  so a position past the end is none of the three outcomes.
* `std::map<std::vector<Result>, unsigned int>` is an association list kept in
  the strictly increasing key order of `std::map` (lexicographic order on the
  vectors, `Grey < Yellow < Green`).
* The counters `frequency` (`unsigned int`) and `wordsPossibleGivenResult`
  (`int`) are natural numbers: they are bounded by the number of remaining
  words, which is assumed to stay below `2^31`.
* `float` arithmetic is abstracted: `getExpectedValueForGuess` is written over
  any type with `0`, `+`, `*`, `/` and a cast from the naturals, and takes the
  base-2 logarithm as an argument. The theorems on the value of the score read
  it in the reals with `Real.logb 2`; the theorem on the order of the ranking
  holds for every linearly ordered number type.
* The threads of `guess` share only the vector `expectedValues`, written under
  the mutex. Each thread is the list of results it appends (`parallelFunc`), and
  a schedule, a list of thread indices, fixes the order of the locked appends
  (`collect`). The theorems hold for every schedule.
* `std::sort` is modelled by its contract `IsStdSort`, which leaves the order of
  equal scores open. The theorems hold for every output that meets it.
-/

namespace Wordle

/-- The per-letter outcome `enum class Result`. -/
inductive Result where
  | Grey
  | Yellow
  | Green
  deriving DecidableEq, Repr

/-- The underlying integer of an enumerator, which `operator<` compares. -/
def Result.toNat : Result → Nat
  | Result.Grey => 0
  | Result.Yellow => 1
  | Result.Green => 2

/-- Read `s[i]` of a `std::string`: the character, or `'\0'` at the end. -/
def charAt (s : List Char) (i : Nat) : Char :=
  s.getD i (Char.ofNat 0)

/-- The record `struct State`. -/
structure State where
  knownLetters : List Char := ['0', '0', '0', '0', '0']
  knownPresentLetters : Finset Char := ∅
  knownAbsentLetters : Finset Char := ∅
  deriving DecidableEq

/-- First loop of `updateStateWithResult`: grey letters become absent. -/
def updateGrey (guess : List Char) (result : List Result) (state : State) (i : Nat) : State :=
  if result[i]? = some Result.Grey then
    { state with knownAbsentLetters := insert (charAt guess i) state.knownAbsentLetters }
  else state

/-- Second loop of `updateStateWithResult`: yellow letters become present and
stop being absent. -/
def updateYellow (guess : List Char) (result : List Result) (state : State) (i : Nat) : State :=
  if result[i]? = some Result.Yellow then
    { state with
      knownPresentLetters := insert (charAt guess i) state.knownPresentLetters
      knownAbsentLetters := state.knownAbsentLetters.erase (charAt guess i) }
  else state

/-- Third loop of `updateStateWithResult`: green letters are written into their
slot and stop being absent. -/
def updateGreen (guess : List Char) (result : List Result) (state : State) (i : Nat) : State :=
  if result[i]? = some Result.Green then
    { state with
      knownLetters := state.knownLetters.set i (charAt guess i)
      knownAbsentLetters := state.knownAbsentLetters.erase (charAt guess i) }
  else state

/-- The function `updateStateWithResult`: three loops over positions `0..4`. -/
def updateStateWithResult (state : State) (guess : List Char) (result : List Result) : State :=
  let s1 := (List.range 5).foldl (updateGrey guess result) state
  let s2 := (List.range 5).foldl (updateYellow guess result) s1
  (List.range 5).foldl (updateGreen guess result) s2

/-- The function `isWordPossibleGivenState`: three loops, each returning `false`
at the first violation. -/
def isWordPossibleGivenState (state : State) (word : List Char) : Bool :=
  if (List.range 5).any (fun i =>
      charAt state.knownLetters i != '0' && charAt state.knownLetters i != charAt word i) then
    false
  else if word.any (fun l => decide (l ∈ state.knownAbsentLetters)) then
    false
  else if decide (∃ l ∈ state.knownPresentLetters, l ∉ word) then
    false
  else
    true

/-- One iteration of the loop of `getResultGivenAnswer`. -/
def resultStep (guess answer : List Char) (resultForGuess : List Result) (i : Nat) : List Result :=
  if charAt guess i = charAt answer i then
    resultForGuess.set i Result.Green
  else if charAt guess i ∈ answer then
    resultForGuess.set i Result.Yellow
  else
    resultForGuess

/-- The function `getResultGivenAnswer`: start from five greys and overwrite. -/
def getResultGivenAnswer (guess answer : List Char) : List Result :=
  (List.range 5).foldl (resultStep guess answer) (List.replicate 5 Result.Grey)

/-- The order `operator<` of `std::vector<Result>`: lexicographic, comparing
the enumerators by their integer value. It orders the keys of the map. -/
def vecLt : List Result → List Result → Bool
  | [], [] => false
  | [], _ :: _ => true
  | _ :: _, [] => false
  | a :: as, b :: bs =>
    if a.toNat < b.toNat then true
    else if b.toNat < a.toNat then false
    else vecLt as bs

/-- The statement `resultFrequencyMap[key]++` on a `std::map` held as a list of
entries in increasing key order: increment the entry of `key`, or insert a new
entry (value-initialised to `0`, then incremented) at its place in the order. -/
def mapIncrement : List (List Result × Nat) → List Result → List (List Result × Nat)
  | [], key => [(key, 1)]
  | (k, v) :: rest, key =>
    if key = k then (k, v + 1) :: rest
    else if vecLt key k then (key, 1) :: (k, v) :: rest
    else (k, v) :: mapIncrement rest key

/-- First loop of `getExpectedValueForGuess`: the map from each result to the
number of remaining words that give it. -/
def resultFrequencyMap (guess : List Char) (remainingWords : List (List Char)) :
    List (List Result × Nat) :=
  remainingWords.foldl
    (fun m possibleAnswer => mapIncrement m (getResultGivenAnswer guess possibleAnswer)) []

/-- Inner loop of `getExpectedValueForGuess`: the number of remaining words
possible in the state updated with `result`. -/
def wordsPossibleGivenResult (guess : List Char) (state : State)
    (remainingWords : List (List Char)) (result : List Result) : Nat :=
  remainingWords.foldl
    (fun n word =>
      if isWordPossibleGivenState (updateStateWithResult state guess result) word then n + 1
      else n) 0

/-- The function `getExpectedValueForGuess`, over an arbitrary number type `F`
standing for `float`, with `log2` standing for `std::log2`. -/
def getExpectedValueForGuess {F : Type} [Zero F] [Add F] [Mul F] [Div F] [NatCast F]
    (log2 : F → F) (guess : List Char) (state : State) (remainingWords : List (List Char)) : F :=
  let numRemainingWords : F := (remainingWords.length : F)
  (resultFrequencyMap guess remainingWords).foldl
    (fun expectedValue entry =>
      expectedValue +
        ((entry.2 : F) / numRemainingWords *
          log2 (numRemainingWords /
            (wordsPossibleGivenResult guess state remainingWords entry.1 : F)))) 0

/-- The loop run by the thread `threadIndex` (the lambda `parallelFunc` of
`guess`): it scores the words whose index is `threadIndex` modulo `numThreads`,
in index order. The list is what this thread appends to `expectedValues`. -/
def parallelFunc {F : Type} [Zero F] [Add F] [Mul F] [Div F] [NatCast F]
    (log2 : F → F) (numThreads : Nat) (state : State) (allWords remainingWords : List (List Char))
    (threadIndex : Nat) : List (List Char × F) :=
  (List.range allWords.length).foldl
    (fun appended i =>
      if i % numThreads != threadIndex then appended
      else appended ++
        [(allWords.getD i [],
          getExpectedValueForGuess log2 (allWords.getD i []) state remainingWords)]) []

/-- The appends to a shared vector guarded by the mutex. Each thread holds the
list of results it still has to append; an entry `t` of the schedule lets thread
`t` append its next result (nothing happens when it has none left). The threads
are joined, so when the schedule ends every result still pending is appended. -/
def collect {α : Type} : List Nat → List (List α) → List α
  | [], pending => pending.flatten
  | t :: schedule, pending =>
    match pending.getD t [] with
    | [] => collect schedule pending
    | a :: rest => a :: collect schedule (pending.set t rest)

/-- The vector `expectedValues` of `guess` once all `numThreads` threads are
joined, under the given schedule of the locked appends. -/
def expectedValues {F : Type} [Zero F] [Add F] [Mul F] [Div F] [NatCast F]
    (log2 : F → F) (numThreads : Nat) (schedule : List Nat) (state : State)
    (allWords remainingWords : List (List Char)) : List (List Char × F) :=
  collect schedule
    ((List.range numThreads).map (parallelFunc log2 numThreads state allWords remainingWords))

/-- The contract of `std::sort` with the comparator `lhs.second > rhs.second`:
the output rearranges the input, and no entry compares before an entry placed
ahead of it. The order of entries with equal scores is left open. -/
def IsStdSort {F : Type} [LT F] (input output : List (List Char × F)) : Prop :=
  output.Perm input ∧ output.Pairwise (fun ahead behind => ¬ (behind.2 > ahead.2))

/-- The statement `if (expectedValues.size() > 10) expectedValues.resize(10)`. -/
def resizeTo10 {α : Type} (l : List α) : List α :=
  if l.length > 10 then l.take 10 else l

/-- Lines 164-201 of `guess`: `ranking` is a list the function can print, that
is the collected `expectedValues`, sorted and cut to ten entries. The function
`guess` runs these lines only when more than two words remain. -/
def rankGuesses {F : Type} [Zero F] [Add F] [Mul F] [Div F] [NatCast F] [LT F]
    (log2 : F → F) (numThreads : Nat) (schedule : List Nat) (state : State)
    (allWords remainingWords : List (List Char)) (ranking : List (List Char × F)) : Prop :=
  ∃ sorted,
    IsStdSort (expectedValues log2 numThreads schedule state allWords remainingWords) sorted ∧
    ranking = resizeTo10 sorted

/-- The call of `std::copy_if` in `main`: the words of the pool that are possible
in the state are appended, in order, to `newRemainingWords`. -/
def copyIfPossible (state : State) (remainingWords : List (List Char)) : List (List Char) :=
  remainingWords.foldl
    (fun newRemainingWords word =>
      if isWordPossibleGivenState state word then newRemainingWords ++ [word]
      else newRemainingWords) []

/-- One round of the loop of `main` once a guess and a result are accepted: the
state is updated, then the pool is filtered against the updated state. -/
def mainRound (state : State) (remainingWords : List (List Char)) (guessedWord : List Char)
    (result : List Result) : State × List (List Char) :=
  (updateStateWithResult state guessedWord result,
    copyIfPossible (updateStateWithResult state guessedWord result) remainingWords)

/-- The outcome the per-position rule gives position `i`: green on a match,
else yellow when the guessed letter occurs in the answer, else grey. -/
def outcomeAt (guess answer : List Char) (i : Nat) : Result :=
  if charAt guess i = charAt answer i then Result.Green
  else if charAt guess i ∈ answer then Result.Yellow
  else Result.Grey

/-- The set of guess letters standing at a position `0..4` whose outcome in
`result` is `r`. -/
def lettersAt (guess : List Char) (result : List Result) (r : Result) : Finset Char :=
  ((Finset.range 5).filter (fun i => result[i]? = some r)).image (charAt guess)

/-- The entries of a map are in strictly increasing key order. -/
def MapSorted (m : List (List Result × Nat)) : Prop :=
  m.Pairwise (fun e1 e2 => vecLt e1.1 e2.1 = true)

/-- The invariant of the first loop of `getExpectedValueForGuess`: the map is in
key order, each entry holds the count `c` of its key, which is at least one, and
every key with a positive count has an entry. -/
def MapCounts (m : List (List Result × Nat)) (c : List Result → Nat) : Prop :=
  MapSorted m ∧ (∀ e ∈ m, e.2 = c e.1 ∧ 1 ≤ e.2) ∧ (∀ p, 1 ≤ c p → ∃ e ∈ m, e.1 = p)

/-! ## The state update -/

theorem mem_lettersAt (guess : List Char) (result : List Result) (r : Result) (c : Char) :
    c ∈ lettersAt guess result r ↔ ∃ i, i < 5 ∧ result[i]? = some r ∧ charAt guess i = c := by
  simp [lettersAt, and_assoc]

theorem foldl_updateGrey (guess : List Char) (result : List Result) (l : List Nat) (s : State) :
    (l.foldl (updateGrey guess result) s).knownLetters = s.knownLetters ∧
    (l.foldl (updateGrey guess result) s).knownPresentLetters = s.knownPresentLetters ∧
    ∀ c, c ∈ (l.foldl (updateGrey guess result) s).knownAbsentLetters ↔
      c ∈ s.knownAbsentLetters ∨ ∃ i ∈ l, result[i]? = some Result.Grey ∧ charAt guess i = c := by
  induction l generalizing s with
  | nil => simp
  | cons j l ih =>
    obtain ⟨h1, h2, h3⟩ := ih (updateGrey guess result s j)
    simp only [List.foldl_cons]
    refine ⟨?_, ?_, ?_⟩
    · rw [h1]; unfold updateGrey; split <;> rfl
    · rw [h2]; unfold updateGrey; split <;> rfl
    · intro c
      rw [h3]
      unfold updateGrey
      by_cases hj : result[j]? = some Result.Grey
      · simp only [hj, if_true, Finset.mem_insert, List.mem_cons, exists_eq_or_imp, true_and]
        constructor
        · rintro ((h | h) | h)
          · exact Or.inr (Or.inl h.symm)
          · exact Or.inl h
          · exact Or.inr (Or.inr h)
        · rintro (h | h | h)
          · exact Or.inl (Or.inr h)
          · exact Or.inl (Or.inl h.symm)
          · exact Or.inr h
      · simp [hj]

theorem foldl_updateYellow (guess : List Char) (result : List Result) (l : List Nat) (s : State) :
    (l.foldl (updateYellow guess result) s).knownLetters = s.knownLetters ∧
    (∀ c, c ∈ (l.foldl (updateYellow guess result) s).knownPresentLetters ↔
      c ∈ s.knownPresentLetters ∨
        ∃ i ∈ l, result[i]? = some Result.Yellow ∧ charAt guess i = c) ∧
    ∀ c, c ∈ (l.foldl (updateYellow guess result) s).knownAbsentLetters ↔
      c ∈ s.knownAbsentLetters ∧
        ¬ ∃ i ∈ l, result[i]? = some Result.Yellow ∧ charAt guess i = c := by
  induction l generalizing s with
  | nil => simp
  | cons j l ih =>
    obtain ⟨h1, h2, h3⟩ := ih (updateYellow guess result s j)
    simp only [List.foldl_cons]
    refine ⟨?_, ?_, ?_⟩
    · rw [h1]; unfold updateYellow; split <;> rfl
    · intro c
      rw [h2]
      unfold updateYellow
      by_cases hj : result[j]? = some Result.Yellow
      · simp only [hj, if_true, Finset.mem_insert, List.mem_cons, exists_eq_or_imp, true_and]
        constructor
        · rintro ((h | h) | h)
          · exact Or.inr (Or.inl h.symm)
          · exact Or.inl h
          · exact Or.inr (Or.inr h)
        · rintro (h | h | h)
          · exact Or.inl (Or.inr h)
          · exact Or.inl (Or.inl h.symm)
          · exact Or.inr h
      · simp [hj]
    · intro c
      rw [h3]
      unfold updateYellow
      by_cases hj : result[j]? = some Result.Yellow
      · simp only [hj, if_true, Finset.mem_erase, List.mem_cons, exists_eq_or_imp, true_and,
          not_or]
        constructor
        · rintro ⟨⟨h, h'⟩, h''⟩
          exact ⟨h', fun e => h e.symm, h''⟩
        · rintro ⟨h, h', h''⟩
          exact ⟨⟨fun e => h' e.symm, h⟩, h''⟩
      · simp [hj]

theorem foldl_updateGreen (guess : List Char) (result : List Result) (l : List Nat) (s : State) :
    (l.foldl (updateGreen guess result) s).knownLetters.length = s.knownLetters.length ∧
    (∀ j, charAt (l.foldl (updateGreen guess result) s).knownLetters j =
      if j ∈ l ∧ result[j]? = some Result.Green ∧ j < s.knownLetters.length then charAt guess j
      else charAt s.knownLetters j) ∧
    (l.foldl (updateGreen guess result) s).knownPresentLetters = s.knownPresentLetters ∧
    ∀ c, c ∈ (l.foldl (updateGreen guess result) s).knownAbsentLetters ↔
      c ∈ s.knownAbsentLetters ∧
        ¬ ∃ i ∈ l, result[i]? = some Result.Green ∧ charAt guess i = c := by
  induction l generalizing s with
  | nil => simp
  | cons j l ih =>
    obtain ⟨h0, h1, h2, h3⟩ := ih (updateGreen guess result s j)
    have hlen : (updateGreen guess result s j).knownLetters.length = s.knownLetters.length := by
      unfold updateGreen; split <;> simp
    simp only [List.foldl_cons]
    refine ⟨?_, ?_, ?_, ?_⟩
    · rw [h0, hlen]
    · intro k
      rw [h1, hlen]
      by_cases hk : k ∈ l ∧ result[k]? = some Result.Green ∧ k < s.knownLetters.length
      · have hk' : (k = j ∨ k ∈ l) ∧ result[k]? = some Result.Green ∧
            k < s.knownLetters.length := ⟨Or.inr hk.1, hk.2⟩
        simp only [hk, List.mem_cons, hk']
        simp
      · rw [if_neg hk]
        unfold updateGreen
        by_cases hj : result[j]? = some Result.Green
        · simp only [hj, if_true, List.mem_cons]
          by_cases hkj : k = j
          · subst hkj
            by_cases hlt : k < s.knownLetters.length
            · simp [charAt, hj, hlt, List.getD_eq_getElem?_getD, List.getElem?_set]
            · have hnone : s.knownLetters[k]? = none :=
                List.getElem?_eq_none (Nat.le_of_not_lt hlt)
              simp [charAt, hlt, hnone, List.getD_eq_getElem?_getD, List.getElem?_set]
          · have : ¬ ((k = j ∨ k ∈ l) ∧ result[k]? = some Result.Green ∧
                k < s.knownLetters.length) := by
              rintro ⟨h | h, h'⟩
              · exact hkj h
              · exact hk ⟨h, h'⟩
            rw [if_neg this]
            simp [charAt, List.getD_eq_getElem?_getD, List.getElem?_set, Ne.symm hkj]
        · have : ¬ ((k ∈ j :: l) ∧ result[k]? = some Result.Green ∧
              k < s.knownLetters.length) := by
            rintro ⟨h, h'⟩
            rcases List.mem_cons.1 h with h | h
            · subst h; exact hj h'.1
            · exact hk ⟨h, h'⟩
          rw [if_neg this]
          simp [hj]
    · rw [h2]; unfold updateGreen; split <;> rfl
    · intro c
      rw [h3]
      unfold updateGreen
      by_cases hj : result[j]? = some Result.Green
      · simp only [hj, if_true, Finset.mem_erase, List.mem_cons, exists_eq_or_imp, true_and,
          not_or]
        constructor
        · rintro ⟨⟨h, h'⟩, h''⟩
          exact ⟨h', fun e => h e.symm, h''⟩
        · rintro ⟨h, h', h''⟩
          exact ⟨⟨fun e => h' e.symm, h⟩, h''⟩
      · simp [hj]

theorem update_knownLetters_length (s : State) (guess : List Char) (result : List Result) :
    (updateStateWithResult s guess result).knownLetters.length = s.knownLetters.length := by
  unfold updateStateWithResult
  rw [(foldl_updateGreen guess result _ _).1, (foldl_updateYellow guess result _ _).1,
    (foldl_updateGrey guess result _ _).1]

theorem update_charAt_knownLetters (s : State) (guess : List Char) (result : List Result)
    (j : Nat) :
    charAt (updateStateWithResult s guess result).knownLetters j =
      if j < 5 ∧ result[j]? = some Result.Green ∧ j < s.knownLetters.length then charAt guess j
      else charAt s.knownLetters j := by
  unfold updateStateWithResult
  rw [(foldl_updateGreen guess result _ _).2.1, (foldl_updateYellow guess result _ _).1,
    (foldl_updateGrey guess result _ _).1]
  simp only [List.mem_range]

theorem update_mem_present (s : State) (guess : List Char) (result : List Result) (c : Char) :
    c ∈ (updateStateWithResult s guess result).knownPresentLetters ↔
      c ∈ s.knownPresentLetters ∨ c ∈ lettersAt guess result Result.Yellow := by
  unfold updateStateWithResult
  rw [(foldl_updateGreen guess result _ _).2.2.1, (foldl_updateYellow guess result _ _).2.1,
    (foldl_updateGrey guess result _ _).2.1, mem_lettersAt]
  simp only [List.mem_range]

theorem update_mem_absent (s : State) (guess : List Char) (result : List Result) (c : Char) :
    c ∈ (updateStateWithResult s guess result).knownAbsentLetters ↔
      (c ∈ s.knownAbsentLetters ∨ c ∈ lettersAt guess result Result.Grey) ∧
        c ∉ lettersAt guess result Result.Yellow ∧ c ∉ lettersAt guess result Result.Green := by
  unfold updateStateWithResult
  rw [(foldl_updateGreen guess result _ _).2.2.2, (foldl_updateYellow guess result _ _).2.2,
    (foldl_updateGrey guess result _ _).2.2, mem_lettersAt, mem_lettersAt, mem_lettersAt]
  simp only [List.mem_range, and_assoc]

/-! ## The consistency test -/

theorem isWordPossible_iff (s : State) (word : List Char) :
    isWordPossibleGivenState s word = true ↔
      (∀ i, i < 5 → charAt s.knownLetters i ≠ '0' →
        charAt s.knownLetters i = charAt word i) ∧
      (∀ l ∈ s.knownAbsentLetters, l ∉ word) ∧
      (∀ l ∈ s.knownPresentLetters, l ∈ word) := by
  unfold isWordPossibleGivenState
  by_cases h1 : (List.range 5).any (fun i =>
      charAt s.knownLetters i != '0' && charAt s.knownLetters i != charAt word i) = true
  · rw [if_pos h1]
    simp only [Bool.false_eq_true, false_iff, not_and]
    intro h
    exfalso
    obtain ⟨i, hi, hc⟩ := List.any_eq_true.1 h1
    simp only [Bool.and_eq_true, bne_iff_ne, ne_eq] at hc
    exact hc.2 (h i (List.mem_range.1 hi) hc.1)
  · rw [if_neg h1]
    have ha : ∀ i, i < 5 → charAt s.knownLetters i ≠ '0' →
        charAt s.knownLetters i = charAt word i := by
      intro i hi hne
      by_contra hcon
      apply h1
      exact List.any_eq_true.2 ⟨i, List.mem_range.2 hi, by simp [hne, hcon]⟩
    by_cases h2 : word.any (fun l => decide (l ∈ s.knownAbsentLetters)) = true
    · rw [if_pos h2]
      simp only [Bool.false_eq_true, false_iff, not_and]
      intro _ h
      exfalso
      obtain ⟨l, hl, hc⟩ := List.any_eq_true.1 h2
      exact h l (of_decide_eq_true hc) hl
    · rw [if_neg h2]
      have hb : ∀ l ∈ s.knownAbsentLetters, l ∉ word := by
        intro l hl hw
        apply h2
        exact List.any_eq_true.2 ⟨l, hw, decide_eq_true hl⟩
      by_cases h3 : ∃ l ∈ s.knownPresentLetters, l ∉ word
      · simp only [h3, decide_True, if_true, Bool.false_eq_true, false_iff, not_and]
        intro _ _ h
        obtain ⟨l, hl, hc⟩ := h3
        exact hc (h l hl)
      · simp only [h3, decide_False, Bool.false_eq_true, if_false, true_iff]
        refine ⟨ha, hb, ?_⟩
        intro l hl
        by_contra hc
        exact h3 ⟨l, hl, hc⟩

/-! ## The feedback of a guess against an answer -/

theorem foldl_resultStep_length (guess answer : List Char) (l : List Nat) (acc : List Result) :
    (l.foldl (resultStep guess answer) acc).length = acc.length := by
  induction l generalizing acc with
  | nil => rfl
  | cons j l ih =>
    simp only [List.foldl_cons]
    rw [ih]
    unfold resultStep
    split_ifs <;> simp

theorem resultStep_length (guess answer : List Char) (acc : List Result) (k : Nat) :
    (resultStep guess answer acc k).length = acc.length := by
  unfold resultStep
  split_ifs <;> simp

theorem resultStep_getElem? (guess answer : List Char) (acc : List Result) (k i : Nat) :
    (resultStep guess answer acc k)[i]? =
      if k = i ∧ i < acc.length ∧ outcomeAt guess answer k ≠ Result.Grey then
        some (outcomeAt guess answer k)
      else acc[i]? := by
  by_cases c1 : charAt guess k = charAt answer k
  · simp only [resultStep, outcomeAt, c1, if_true, List.getElem?_set]
    by_cases hki : k = i
    · by_cases hlt : i < acc.length
      · simp [hki, hlt]
      · simp [hki, hlt, List.getElem?_eq_none (Nat.le_of_not_lt hlt)]
    · simp [hki]
  · by_cases c2 : charAt guess k ∈ answer
    · simp only [resultStep, outcomeAt, c1, c2, if_true, if_false, List.getElem?_set]
      by_cases hki : k = i
      · by_cases hlt : i < acc.length
        · simp [hki, hlt]
        · simp [hki, hlt, List.getElem?_eq_none (Nat.le_of_not_lt hlt)]
      · simp [hki]
    · simp [resultStep, outcomeAt, c1, c2]

theorem foldl_resultStep_getElem? (guess answer : List Char) (l : List Nat)
    (acc : List Result) (i : Nat) :
    (l.foldl (resultStep guess answer) acc)[i]? =
      if i ∈ l ∧ i < acc.length ∧ outcomeAt guess answer i ≠ Result.Grey then
        some (outcomeAt guess answer i)
      else acc[i]? := by
  induction l generalizing acc with
  | nil => simp
  | cons k l ih =>
    simp only [List.foldl_cons]
    rw [ih, resultStep_length, resultStep_getElem?]
    by_cases h1 : i ∈ l ∧ i < acc.length ∧ outcomeAt guess answer i ≠ Result.Grey
    · have h2 : i ∈ k :: l ∧ i < acc.length ∧ outcomeAt guess answer i ≠ Result.Grey :=
        ⟨List.mem_cons_of_mem _ h1.1, h1.2⟩
      rw [if_pos h1, if_pos h2]
    · rw [if_neg h1]
      by_cases h3 : k = i ∧ i < acc.length ∧ outcomeAt guess answer k ≠ Result.Grey
      · obtain ⟨hk, hlt, hne⟩ := h3
        subst hk
        have h2 : k ∈ k :: l ∧ k < acc.length ∧ outcomeAt guess answer k ≠ Result.Grey :=
          ⟨List.mem_cons_self _ _, hlt, hne⟩
        rw [if_pos ⟨rfl, hlt, hne⟩, if_pos h2]
      · rw [if_neg h3]
        have h2 : ¬ (i ∈ k :: l ∧ i < acc.length ∧ outcomeAt guess answer i ≠ Result.Grey) := by
          rintro ⟨hm, hlt, hne⟩
          rcases List.mem_cons.1 hm with h | h
          · subst h; exact h3 ⟨rfl, hlt, hne⟩
          · exact h1 ⟨h, hlt, hne⟩
        rw [if_neg h2]

theorem getResult_length (guess answer : List Char) :
    (getResultGivenAnswer guess answer).length = 5 := by
  unfold getResultGivenAnswer
  rw [foldl_resultStep_length]
  rfl

theorem getResult_getElem? (guess answer : List Char) (i : Nat) (hi : i < 5) :
    (getResultGivenAnswer guess answer)[i]? = some (outcomeAt guess answer i) := by
  unfold getResultGivenAnswer
  rw [foldl_resultStep_getElem?]
  have hrep : (List.replicate 5 Result.Grey)[i]? = some Result.Grey := by
    rw [List.getElem?_replicate, if_pos hi]
  have hlt : i < (List.replicate 5 Result.Grey).length := by
    rw [List.length_replicate]; exact hi
  by_cases hne : outcomeAt guess answer i = Result.Grey
  · rw [if_neg (fun h => h.2.2 hne), hrep, hne]
  · rw [if_pos ⟨List.mem_range.2 hi, hlt, hne⟩]

theorem outcomeAt_eq_green (guess answer : List Char) (i : Nat) :
    outcomeAt guess answer i = Result.Green ↔ charAt guess i = charAt answer i := by
  unfold outcomeAt
  split_ifs <;> simp_all

theorem outcomeAt_eq_yellow (guess answer : List Char) (i : Nat) :
    outcomeAt guess answer i = Result.Yellow ↔
      charAt guess i ≠ charAt answer i ∧ charAt guess i ∈ answer := by
  unfold outcomeAt
  split_ifs <;> simp_all

theorem outcomeAt_eq_grey (guess answer : List Char) (i : Nat) :
    outcomeAt guess answer i = Result.Grey ↔
      charAt guess i ≠ charAt answer i ∧ charAt guess i ∉ answer := by
  unfold outcomeAt
  split_ifs <;> simp_all

theorem getResult_eq_some (guess answer : List Char) (i : Nat) (hi : i < 5) (r : Result) :
    (getResultGivenAnswer guess answer)[i]? = some r ↔ outcomeAt guess answer i = r := by
  rw [getResult_getElem? guess answer i hi]
  exact Option.some_inj

theorem getResult_self (w : List Char) :
    getResultGivenAnswer w w =
      [Result.Green, Result.Green, Result.Green, Result.Green, Result.Green] := by
  apply List.ext_getElem?
  intro i
  by_cases hi : i < 5
  · rw [getResult_getElem? w w i hi, (outcomeAt_eq_green w w i).2 rfl]
    have h5 : i = 0 ∨ i = 1 ∨ i = 2 ∨ i = 3 ∨ i = 4 := by omega
    rcases h5 with h | h | h | h | h <;> subst h <;> rfl
  · rw [List.getElem?_eq_none, List.getElem?_eq_none]
    · simp only [List.length_cons, List.length_nil]; omega
    · rw [getResult_length]; omega

/-! ## The answer survives its own feedback -/

theorem answer_possible_after_update (s : State) (guess answer : List Char)
    (h : isWordPossibleGivenState s answer = true) :
    isWordPossibleGivenState
      (updateStateWithResult s guess (getResultGivenAnswer guess answer)) answer = true := by
  rw [isWordPossible_iff] at h ⊢
  obtain ⟨ha, hb, hc⟩ := h
  refine ⟨?_, ?_, ?_⟩
  · intro i hi
    rw [update_charAt_knownLetters]
    by_cases hg : i < 5 ∧ (getResultGivenAnswer guess answer)[i]? = some Result.Green ∧
        i < s.knownLetters.length
    · rw [if_pos hg]
      intro _
      exact (outcomeAt_eq_green guess answer i).1 ((getResult_eq_some guess answer i hi _).1 hg.2.1)
    · rw [if_neg hg]
      exact ha i hi
  · intro l hl
    rw [update_mem_absent] at hl
    rcases hl.1 with h1 | h1
    · exact hb l h1
    · obtain ⟨i, hi, hr, hc⟩ := (mem_lettersAt _ _ _ _).1 h1
      have := (outcomeAt_eq_grey guess answer i).1 ((getResult_eq_some guess answer i hi _).1 hr)
      rw [← hc]
      exact this.2
  · intro l hl
    rw [update_mem_present] at hl
    rcases hl with h1 | h1
    · exact hc l h1
    · obtain ⟨i, hi, hr, hc⟩ := (mem_lettersAt _ _ _ _).1 h1
      have := (outcomeAt_eq_yellow guess answer i).1 ((getResult_eq_some guess answer i hi _).1 hr)
      rw [← hc]
      exact this.2

/-! ## When excluded words stay excluded -/

theorem excluded_stays_excluded (s : State) (word guess : List Char) (result : List Result)
    (habs : ∀ c ∈ s.knownAbsentLetters,
      c ∉ lettersAt guess result Result.Yellow ∧ c ∉ lettersAt guess result Result.Green)
    (hfix : ∀ i, i < 5 → result[i]? = some Result.Green →
      charAt s.knownLetters i = '0' ∨ charAt s.knownLetters i = charAt guess i)
    (h : isWordPossibleGivenState s word = false) :
    isWordPossibleGivenState (updateStateWithResult s guess result) word = false := by
  rw [Bool.eq_false_iff] at h ⊢
  intro h'
  apply h
  rw [isWordPossible_iff] at h' ⊢
  obtain ⟨ha, hb, hc⟩ := h'
  refine ⟨?_, ?_, ?_⟩
  · intro i hi hne
    have hai := ha i hi
    rw [update_charAt_knownLetters] at hai
    by_cases hg : i < 5 ∧ result[i]? = some Result.Green ∧ i < s.knownLetters.length
    · rw [if_pos hg] at hai
      rcases hfix i hi hg.2.1 with h0 | h0
      · exact absurd h0 hne
      · rw [h0]
        apply hai
        rw [← h0]
        exact hne
    · rw [if_neg hg] at hai
      exact hai hne
  · intro l hl
    apply hb l
    rw [update_mem_absent]
    exact ⟨Or.inl hl, habs l hl⟩
  · intro l hl
    apply hc l
    rw [update_mem_present]
    exact Or.inl hl

/-! ## The order of the map keys -/

theorem Result.toNat_injective (a b : Result) (h : a.toNat = b.toNat) : a = b := by
  cases a <;> cases b <;> simp_all [Result.toNat]

theorem vecLt_irrefl (a : List Result) : vecLt a a = false := by
  induction a with
  | nil => rfl
  | cons x xs ih => simp [vecLt, ih]

theorem vecLt_trans (a b c : List Result) (hab : vecLt a b = true) (hbc : vecLt b c = true) :
    vecLt a c = true := by
  induction a generalizing b c with
  | nil =>
    cases b with
    | nil => simp [vecLt] at hab
    | cons y ys =>
      cases c with
      | nil => simp [vecLt] at hbc
      | cons z zs => simp [vecLt]
  | cons x xs ih =>
    cases b with
    | nil => simp [vecLt] at hab
    | cons y ys =>
      cases c with
      | nil => simp [vecLt] at hbc
      | cons z zs =>
        simp only [vecLt] at hab hbc ⊢
        by_cases hxy : x.toNat < y.toNat
        · by_cases hyz : y.toNat < z.toNat
          · have : x.toNat < z.toNat := Nat.lt_trans hxy hyz
            simp [this]
          · by_cases hzy : z.toNat < y.toNat
            · simp [hyz, hzy] at hbc
            · have : x.toNat < z.toNat := by omega
              simp [this]
        · by_cases hyx : y.toNat < x.toNat
          · simp [hxy, hyx] at hab
          · simp only [hxy, hyx, if_false] at hab
            by_cases hyz : y.toNat < z.toNat
            · have : x.toNat < z.toNat := by omega
              simp [this]
            · by_cases hzy : z.toNat < y.toNat
              · simp [hyz, hzy] at hbc
              · simp only [hyz, hzy, if_false] at hbc
                have h1 : ¬ x.toNat < z.toNat := by omega
                have h2 : ¬ z.toNat < x.toNat := by omega
                simp only [h1, h2, if_false]
                exact ih ys zs hab hbc

theorem vecLt_of_ne_of_not_lt (a b : List Result) (hne : a ≠ b) (h : vecLt a b = false) :
    vecLt b a = true := by
  induction a generalizing b with
  | nil =>
    cases b with
    | nil => exact absurd rfl hne
    | cons y ys => simp [vecLt] at h
  | cons x xs ih =>
    cases b with
    | nil => simp [vecLt]
    | cons y ys =>
      simp only [vecLt] at h ⊢
      by_cases hxy : x.toNat < y.toNat
      · simp [hxy] at h
      · by_cases hyx : y.toNat < x.toNat
        · simp [hyx]
        · simp only [hxy, hyx, if_false] at h ⊢
          have hxy' : x = y := Result.toNat_injective x y (by omega)
          apply ih ys _ h
          intro e
          exact hne (by rw [hxy', e])

/-! ## Incrementing a map entry -/

theorem mapIncrement_mem (m : List (List Result × Nat)) (key : List Result)
    (e : List Result × Nat) (he : e ∈ mapIncrement m key) : e.1 = key ∨ e ∈ m := by
  induction m with
  | nil =>
    simp only [mapIncrement, List.mem_singleton] at he
    left; rw [he]
  | cons hd rest ih =>
    obtain ⟨k, v⟩ := hd
    simp only [mapIncrement] at he
    by_cases h1 : key = k
    · rw [if_pos h1] at he
      rcases List.mem_cons.1 he with h | h
      · left; rw [h, h1]
      · right; exact List.mem_cons_of_mem _ h
    · rw [if_neg h1] at he
      by_cases h2 : vecLt key k = true
      · rw [if_pos h2] at he
        rcases List.mem_cons.1 he with h | h
        · left; rw [h]
        · right; exact h
      · rw [if_neg h2] at he
        rcases List.mem_cons.1 he with h | h
        · right; rw [h]; exact List.mem_cons_self _ _
        · rcases ih h with h' | h'
          · left; exact h'
          · right; exact List.mem_cons_of_mem _ h'

theorem mapIncrement_has_key (m : List (List Result × Nat)) (key : List Result) :
    ∃ e ∈ mapIncrement m key, e.1 = key := by
  induction m with
  | nil => exact ⟨(key, 1), by simp [mapIncrement], rfl⟩
  | cons hd rest ih =>
    obtain ⟨k, v⟩ := hd
    simp only [mapIncrement]
    by_cases h1 : key = k
    · rw [if_pos h1]
      exact ⟨(k, v + 1), List.mem_cons_self _ _, h1.symm⟩
    · rw [if_neg h1]
      by_cases h2 : vecLt key k = true
      · rw [if_pos h2]
        exact ⟨(key, 1), List.mem_cons_self _ _, rfl⟩
      · rw [if_neg h2]
        obtain ⟨e, he, hk⟩ := ih
        exact ⟨e, List.mem_cons_of_mem _ he, hk⟩

theorem mapIncrement_keeps_others (m : List (List Result × Nat)) (key : List Result)
    (e : List Result × Nat) (he : e ∈ m) (hne : e.1 ≠ key) : e ∈ mapIncrement m key := by
  induction m with
  | nil => simp at he
  | cons hd rest ih =>
    obtain ⟨k, v⟩ := hd
    simp only [mapIncrement]
    by_cases h1 : key = k
    · rw [if_pos h1]
      rcases List.mem_cons.1 he with h | h
      · exfalso; apply hne; rw [h, h1]
      · exact List.mem_cons_of_mem _ h
    · rw [if_neg h1]
      by_cases h2 : vecLt key k = true
      · rw [if_pos h2]
        exact List.mem_cons_of_mem _ he
      · rw [if_neg h2]
        rcases List.mem_cons.1 he with h | h
        · rw [h]; exact List.mem_cons_self _ _
        · exact List.mem_cons_of_mem _ (ih h)

theorem mapIncrement_sorted (m : List (List Result × Nat)) (key : List Result)
    (hm : MapSorted m) : MapSorted (mapIncrement m key) := by
  induction m with
  | nil => simp [mapIncrement, MapSorted]
  | cons hd rest ih =>
    obtain ⟨k, v⟩ := hd
    unfold MapSorted at hm ih ⊢
    rw [List.pairwise_cons] at hm
    simp only [mapIncrement]
    by_cases h1 : key = k
    · rw [if_pos h1, List.pairwise_cons]
      exact ⟨hm.1, hm.2⟩
    · rw [if_neg h1]
      by_cases h2 : vecLt key k = true
      · rw [if_pos h2, List.pairwise_cons, List.pairwise_cons]
        refine ⟨?_, hm.1, hm.2⟩
        intro e he
        rcases List.mem_cons.1 he with h | h
        · rw [h]; exact h2
        · exact vecLt_trans _ _ _ h2 (hm.1 e h)
      · rw [if_neg h2, List.pairwise_cons]
        refine ⟨?_, ih hm.2⟩
        intro e he
        rcases mapIncrement_mem rest key e he with h | h
        · rw [h]
          exact vecLt_of_ne_of_not_lt key k h1 (by simpa using h2)
        · exact hm.1 e h

theorem mapIncrement_value (m : List (List Result × Nat)) (key : List Result)
    (hm : MapSorted m) (e : List Result × Nat) (he : e ∈ mapIncrement m key)
    (hk : e.1 = key) :
    (∃ v, (key, v) ∈ m ∧ e.2 = v + 1) ∨ ((∀ e' ∈ m, e'.1 ≠ key) ∧ e.2 = 1) := by
  induction m with
  | nil =>
    simp only [mapIncrement, List.mem_singleton] at he
    right
    exact ⟨by simp, by rw [he]⟩
  | cons hd rest ih =>
    obtain ⟨k, v⟩ := hd
    unfold MapSorted at hm ih
    rw [List.pairwise_cons] at hm
    simp only [mapIncrement] at he
    by_cases h1 : key = k
    · rw [if_pos h1] at he
      rcases List.mem_cons.1 he with h | h
      · left
        exact ⟨v, by rw [h1]; exact List.mem_cons_self _ _, by rw [h]⟩
      · exfalso
        have := hm.1 e h
        rw [hk, h1, vecLt_irrefl] at this
        exact Bool.false_ne_true this
    · rw [if_neg h1] at he
      by_cases h2 : vecLt key k = true
      · rw [if_pos h2] at he
        have hno : ∀ e' ∈ (k, v) :: rest, e'.1 ≠ key := by
          intro e' he' heq
          rcases List.mem_cons.1 he' with h | h
          · apply h1; rw [← heq, h]
          · have h3 := hm.1 e' h
            rw [heq] at h3
            have h4 := vecLt_trans _ _ _ h2 h3
            rw [vecLt_irrefl] at h4
            exact Bool.false_ne_true h4
        rcases List.mem_cons.1 he with h | h
        · right
          exact ⟨hno, by rw [h]⟩
        · exact absurd hk (hno e h)
      · rw [if_neg h2] at he
        rcases List.mem_cons.1 he with h | h
        · exfalso; apply h1; rw [← hk, h]
        · rcases ih hm.2 h with ⟨v', hv', hev⟩ | ⟨hno, hev⟩
          · left
            exact ⟨v', List.mem_cons_of_mem _ hv', hev⟩
          · right
            refine ⟨?_, hev⟩
            intro e' he' heq
            rcases List.mem_cons.1 he' with h' | h'
            · apply h1; rw [← heq, h']
            · exact hno e' h' heq

theorem mapIncrement_counts (m : List (List Result × Nat)) (c : List Result → Nat)
    (key : List Result) (h : MapCounts m c) :
    MapCounts (mapIncrement m key) (fun p => c p + if p = key then 1 else 0) := by
  obtain ⟨hs, hv, hc⟩ := h
  refine ⟨mapIncrement_sorted m key hs, ?_, ?_⟩
  · intro e he
    by_cases hk : e.1 = key
    · simp only [hk, if_true]
      rcases mapIncrement_value m key hs e he hk with ⟨v, hv', hev⟩ | ⟨hno, hev⟩
      · have := (hv (key, v) hv').1
        simp only at this
        omega
      · have h0 : c key = 0 := by
          by_contra hne
          obtain ⟨e', he', hk'⟩ := hc key (by omega)
          exact hno e' he' hk'
        omega
    · simp only [hk, if_false, Nat.add_zero]
      rcases mapIncrement_mem m key e he with h | h
      · exact absurd h hk
      · exact hv e h
  · intro p hp
    by_cases hk : p = key
    · rw [hk]
      exact mapIncrement_has_key m key
    · simp only [hk, if_false, Nat.add_zero] at hp
      obtain ⟨e, he, hep⟩ := hc p hp
      exact ⟨e, mapIncrement_keeps_others m key e he (by rw [hep]; exact hk), hep⟩

theorem foldl_mapIncrement_counts (ks : List (List Result)) (m : List (List Result × Nat))
    (c : List Result → Nat) (h : MapCounts m c) :
    MapCounts (ks.foldl mapIncrement m) (fun p => c p + ks.count p) := by
  induction ks generalizing m c with
  | nil => simpa using h
  | cons k ks ih =>
    simp only [List.foldl_cons]
    have := ih (mapIncrement m k) _ (mapIncrement_counts m c k h)
    have heq : (fun p => (c p + if p = k then 1 else 0) + ks.count p) =
        (fun p => c p + (k :: ks).count p) := by
      funext p
      rw [List.count_cons]
      by_cases hp : p = k
      · subst hp; simp; omega
      · have : ¬ (k == p) = true := by
          simpa using fun e : k = p => hp e.symm
        simp [hp, this]
    rw [heq] at this
    exact this

theorem resultFrequencyMap_eq (guess : List Char) (pool : List (List Char)) :
    resultFrequencyMap guess pool =
      (pool.map (getResultGivenAnswer guess)).foldl mapIncrement [] := by
  unfold resultFrequencyMap
  rw [List.foldl_map]

theorem count_map_getResult (guess : List Char) (pool : List (List Char)) (p : List Result) :
    (pool.map (getResultGivenAnswer guess)).count p =
      pool.countP (fun a => decide (getResultGivenAnswer guess a = p)) := by
  induction pool with
  | nil => rfl
  | cons a pool ih =>
    rw [List.map_cons, List.count_cons, List.countP_cons, ih]
    by_cases h : getResultGivenAnswer guess a = p
    · simp [h]
    · simp [h]

theorem resultFrequencyMap_counts (guess : List Char) (pool : List (List Char)) :
    MapCounts (resultFrequencyMap guess pool)
      (fun p => pool.countP (fun a => decide (getResultGivenAnswer guess a = p))) := by
  rw [resultFrequencyMap_eq]
  have h0 : MapCounts [] (fun _ => 0) :=
    ⟨List.Pairwise.nil, by simp, by simp⟩
  have := foldl_mapIncrement_counts (pool.map (getResultGivenAnswer guess)) [] _ h0
  simp only [Nat.zero_add, count_map_getResult] at this
  exact this

theorem foldl_count_possible (st : State) (pool : List (List Char)) (n : Nat) :
    pool.foldl (fun n word => if isWordPossibleGivenState st word then n + 1 else n) n =
      n + pool.countP (fun w => isWordPossibleGivenState st w) := by
  induction pool generalizing n with
  | nil => simp
  | cons w pool ih =>
    rw [List.foldl_cons, ih, List.countP_cons]
    by_cases h : isWordPossibleGivenState st w = true
    · simp [h]; omega
    · simp [h]

theorem wordsPossibleGivenResult_eq (guess : List Char) (state : State)
    (pool : List (List Char)) (result : List Result) :
    wordsPossibleGivenResult guess state pool result =
      pool.countP (fun w =>
        isWordPossibleGivenState (updateStateWithResult state guess result) w) := by
  unfold wordsPossibleGivenResult
  rw [foldl_count_possible, Nat.zero_add]

theorem wordsPossibleGivenResult_le (guess : List Char) (state : State)
    (pool : List (List Char)) (result : List Result) :
    wordsPossibleGivenResult guess state pool result ≤ pool.length := by
  rw [wordsPossibleGivenResult_eq]
  exact List.countP_le_length _

theorem frequency_le_wordsPossible (guess : List Char) (state : State)
    (pool : List (List Char)) (hall : ∀ w ∈ pool, isWordPossibleGivenState state w = true)
    (p : List Result) :
    pool.countP (fun a => decide (getResultGivenAnswer guess a = p)) ≤
      wordsPossibleGivenResult guess state pool p := by
  rw [wordsPossibleGivenResult_eq]
  apply List.countP_mono_left
  intro a ha hp
  have hpa : getResultGivenAnswer guess a = p := of_decide_eq_true hp
  rw [← hpa]
  exact answer_possible_after_update state guess a (hall a ha)

theorem entry_bounds (guess : List Char) (state : State) (pool : List (List Char))
    (hall : ∀ w ∈ pool, isWordPossibleGivenState state w = true)
    (e : List Result × Nat) (he : e ∈ resultFrequencyMap guess pool) :
    1 ≤ e.2 ∧ e.2 ≤ wordsPossibleGivenResult guess state pool e.1 ∧
      wordsPossibleGivenResult guess state pool e.1 ≤ pool.length := by
  obtain ⟨_, hv, _⟩ := resultFrequencyMap_counts guess pool
  obtain ⟨h1, h2⟩ := hv e he
  refine ⟨h2, ?_, wordsPossibleGivenResult_le guess state pool e.1⟩
  rw [h1]
  exact frequency_le_wordsPossible guess state pool hall e.1

/-! ## The expected value in the reals -/

theorem foldl_add_eq_sum (t : List Result × Nat → ℝ) (l : List (List Result × Nat)) (acc : ℝ) :
    l.foldl (fun expectedValue entry => expectedValue + t entry) acc = acc + (l.map t).sum := by
  induction l generalizing acc with
  | nil => simp
  | cons e l ih =>
    rw [List.foldl_cons, ih, List.map_cons, List.sum_cons, add_assoc]

theorem sum_map_nonneg (t : List Result × Nat → ℝ) (l : List (List Result × Nat))
    (h : ∀ e ∈ l, 0 ≤ t e) : 0 ≤ (l.map t).sum := by
  induction l with
  | nil => simp
  | cons e l ih =>
    rw [List.map_cons, List.sum_cons]
    exact add_nonneg (h e (List.mem_cons_self _ _))
      (ih (fun e' he' => h e' (List.mem_cons_of_mem _ he')))

theorem sum_map_eq_zero_iff (t : List Result × Nat → ℝ) (l : List (List Result × Nat))
    (h : ∀ e ∈ l, 0 ≤ t e) : (l.map t).sum = 0 ↔ ∀ e ∈ l, t e = 0 := by
  induction l with
  | nil => simp
  | cons e l ih =>
    have h1 : 0 ≤ t e := h e (List.mem_cons_self _ _)
    have h2 : ∀ e' ∈ l, 0 ≤ t e' := fun e' he' => h e' (List.mem_cons_of_mem _ he')
    have h3 : 0 ≤ (l.map t).sum := sum_map_nonneg t l h2
    rw [List.map_cons, List.sum_cons]
    constructor
    · intro hsum e' he'
      have he0 : t e = 0 := by linarith
      have hl0 : (l.map t).sum = 0 := by linarith
      rcases List.mem_cons.1 he' with h' | h'
      · rw [h']; exact he0
      · exact (ih h2).1 hl0 e' h'
    · intro hall
      rw [hall e (List.mem_cons_self _ _),
        (ih h2).2 (fun e' he' => hall e' (List.mem_cons_of_mem _ he'))]
      simp

theorem getExpectedValue_eq_sum (guess : List Char) (state : State) (pool : List (List Char)) :
    getExpectedValueForGuess (Real.logb 2) guess state pool =
      ((resultFrequencyMap guess pool).map (fun entry =>
        (entry.2 : ℝ) / (pool.length : ℝ) *
          Real.logb 2 ((pool.length : ℝ) /
            (wordsPossibleGivenResult guess state pool entry.1 : ℝ)))).sum := by
  unfold getExpectedValueForGuess
  simp only
  rw [foldl_add_eq_sum, zero_add]

theorem term_nonneg (c k n : Nat) (hk : 1 ≤ k) (hkn : k ≤ n) :
    0 ≤ (c : ℝ) / (n : ℝ) * Real.logb 2 ((n : ℝ) / (k : ℝ)) := by
  have hk0 : (0 : ℝ) < (k : ℝ) := by exact_mod_cast hk
  have hkn' : (k : ℝ) ≤ (n : ℝ) := by exact_mod_cast hkn
  have h1 : (1 : ℝ) ≤ (n : ℝ) / (k : ℝ) := (one_le_div hk0).2 hkn'
  have h2 : 0 ≤ Real.logb 2 ((n : ℝ) / (k : ℝ)) := Real.logb_nonneg (by norm_num) h1
  have h3 : (0 : ℝ) ≤ (c : ℝ) / (n : ℝ) := div_nonneg (Nat.cast_nonneg c) (Nat.cast_nonneg n)
  exact mul_nonneg h3 h2

theorem term_eq_zero_iff (c k n : Nat) (hc : 1 ≤ c) (hk : 1 ≤ k) (hkn : k ≤ n) :
    (c : ℝ) / (n : ℝ) * Real.logb 2 ((n : ℝ) / (k : ℝ)) = 0 ↔ k = n := by
  have hk0 : (0 : ℝ) < (k : ℝ) := by exact_mod_cast hk
  have hn0 : (0 : ℝ) < (n : ℝ) := by exact_mod_cast (Nat.lt_of_lt_of_le hk hkn)
  have hc0 : (0 : ℝ) < (c : ℝ) := by exact_mod_cast hc
  have hcn : (c : ℝ) / (n : ℝ) ≠ 0 := ne_of_gt (div_pos hc0 hn0)
  constructor
  · intro h
    rcases mul_eq_zero.1 h with h' | h'
    · exact absurd h' hcn
    · by_contra hne
      have hlt : k < n := Nat.lt_of_le_of_ne hkn hne
      have hlt' : (k : ℝ) < (n : ℝ) := by exact_mod_cast hlt
      have h1 : (1 : ℝ) < (n : ℝ) / (k : ℝ) := (one_lt_div hk0).2 hlt'
      have := Real.logb_pos (by norm_num : (1 : ℝ) < 2) h1
      linarith
  · intro h
    rw [h, div_self (ne_of_gt hn0), Real.logb_one, mul_zero]

theorem getExpectedValue_nonneg (guess : List Char) (state : State) (pool : List (List Char))
    (hall : ∀ w ∈ pool, isWordPossibleGivenState state w = true) :
    0 ≤ getExpectedValueForGuess (Real.logb 2) guess state pool := by
  rw [getExpectedValue_eq_sum]
  apply sum_map_nonneg
  intro e he
  obtain ⟨h1, h2, h3⟩ := entry_bounds guess state pool hall e he
  exact term_nonneg e.2 _ pool.length (Nat.le_trans h1 h2) h3

/-! ## Guesses that split the pool -/

theorem charAt_mem (w : List Char) (i : Nat) (hi : i < w.length) : charAt w i ∈ w := by
  unfold charAt
  rw [List.getD_eq_getElem _ _ hi]
  exact List.getElem_mem hi

theorem outcome_transfer (s : State) (guess a w : List Char)
    (hs : s.knownLetters.length = 5) (ha5 : a.length = 5) (hw5 : w.length = 5)
    (h : isWordPossibleGivenState
      (updateStateWithResult s guess (getResultGivenAnswer guess a)) w = true)
    (i : Nat) (hi : i < 5) (h0 : charAt guess i ≠ '0') :
    (outcomeAt guess a i = Result.Green → outcomeAt guess w i = Result.Green) ∧
    (outcomeAt guess a i = Result.Grey → outcomeAt guess w i = Result.Grey) := by
  rw [isWordPossible_iff] at h
  obtain ⟨hfix, habs, _⟩ := h
  constructor
  · intro hg
    have hres : (getResultGivenAnswer guess a)[i]? = some Result.Green :=
      (getResult_eq_some guess a i hi _).2 hg
    have hk := hfix i hi
    rw [update_charAt_knownLetters, if_pos ⟨hi, hres, by rw [hs]; exact hi⟩] at hk
    exact (outcomeAt_eq_green guess w i).2 (hk h0)
  · intro hg
    have hgrey := (outcomeAt_eq_grey guess a i).1 hg
    have hres : (getResultGivenAnswer guess a)[i]? = some Result.Grey :=
      (getResult_eq_some guess a i hi _).2 hg
    have hmem : charAt guess i ∈
        (updateStateWithResult s guess (getResultGivenAnswer guess a)).knownAbsentLetters := by
      rw [update_mem_absent]
      refine ⟨Or.inr ((mem_lettersAt _ _ _ _).2 ⟨i, hi, hres, rfl⟩), ?_, ?_⟩
      · intro hy
        obtain ⟨j, hj, hr, hc⟩ := (mem_lettersAt _ _ _ _).1 hy
        have := (outcomeAt_eq_yellow guess a j).1 ((getResult_eq_some guess a j hj _).1 hr)
        rw [hc] at this
        exact hgrey.2 this.2
      · intro hy
        obtain ⟨j, hj, hr, hc⟩ := (mem_lettersAt _ _ _ _).1 hy
        have := (outcomeAt_eq_green guess a j).1 ((getResult_eq_some guess a j hj _).1 hr)
        rw [hc] at this
        apply hgrey.2
        rw [this]
        exact charAt_mem a j (by rw [ha5]; exact hj)
    have hnot : charAt guess i ∉ w := habs _ hmem
    apply (outcomeAt_eq_grey guess w i).2
    refine ⟨?_, hnot⟩
    intro e
    apply hnot
    rw [e]
    exact charAt_mem w i (by rw [hw5]; exact hi)

theorem same_result_of_mutually_possible (s : State) (guess w1 w2 : List Char)
    (hs : s.knownLetters.length = 5) (h1 : w1.length = 5) (h2 : w2.length = 5)
    (h0 : ∀ i, i < 5 → charAt guess i ≠ '0')
    (h12 : isWordPossibleGivenState
      (updateStateWithResult s guess (getResultGivenAnswer guess w1)) w2 = true)
    (h21 : isWordPossibleGivenState
      (updateStateWithResult s guess (getResultGivenAnswer guess w2)) w1 = true) :
    getResultGivenAnswer guess w1 = getResultGivenAnswer guess w2 := by
  apply List.ext_getElem?
  intro i
  by_cases hi : i < 5
  · rw [getResult_getElem? guess w1 i hi, getResult_getElem? guess w2 i hi]
    have t12 := outcome_transfer s guess w1 w2 hs h1 h2 h12 i hi (h0 i hi)
    have t21 := outcome_transfer s guess w2 w1 hs h2 h1 h21 i hi (h0 i hi)
    congr 1
    cases hc1 : outcomeAt guess w1 i with
    | Green => exact (t12.1 hc1).symm
    | Grey => exact (t12.2 hc1).symm
    | Yellow =>
      cases hc2 : outcomeAt guess w2 i with
      | Green => rw [t21.1 hc2] at hc1; exact absurd hc1 (by decide)
      | Grey => rw [t21.2 hc2] at hc1; exact absurd hc1 (by decide)
      | Yellow => rfl
  · rw [List.getElem?_eq_none, List.getElem?_eq_none]
    · rw [getResult_length]; omega
    · rw [getResult_length]; omega

theorem getExpectedValue_eq_zero_iff (guess : List Char) (state : State)
    (pool : List (List Char))
    (h0 : ∀ i, i < 5 → charAt guess i ≠ '0')
    (hs : state.knownLetters.length = 5)
    (hp5 : ∀ w ∈ pool, w.length = 5)
    (hall : ∀ w ∈ pool, isWordPossibleGivenState state w = true) :
    getExpectedValueForGuess (Real.logb 2) guess state pool = 0 ↔
      ∀ w1 ∈ pool, ∀ w2 ∈ pool,
        getResultGivenAnswer guess w1 = getResultGivenAnswer guess w2 := by
  rw [getExpectedValue_eq_sum, sum_map_eq_zero_iff]
  · obtain ⟨_, hv, hc⟩ := resultFrequencyMap_counts guess pool
    have hterm : ∀ e ∈ resultFrequencyMap guess pool,
        ((e.2 : ℝ) / (pool.length : ℝ) * Real.logb 2 ((pool.length : ℝ) /
          (wordsPossibleGivenResult guess state pool e.1 : ℝ)) = 0 ↔
        wordsPossibleGivenResult guess state pool e.1 = pool.length) := by
      intro e he
      obtain ⟨b1, b2, b3⟩ := entry_bounds guess state pool hall e he
      exact term_eq_zero_iff e.2 _ pool.length b1 (Nat.le_trans b1 b2) b3
    constructor
    · intro hz
      have hposs : ∀ w1 ∈ pool, ∀ w2 ∈ pool, isWordPossibleGivenState
          (updateStateWithResult state guess (getResultGivenAnswer guess w1)) w2 = true := by
        intro w1 hw1 w2 hw2
        have hpos : 1 ≤ pool.countP
            (fun a => decide (getResultGivenAnswer guess a = getResultGivenAnswer guess w1)) :=
          List.countP_pos_iff.2 ⟨w1, hw1, decide_eq_true rfl⟩
        obtain ⟨e, he, hep⟩ := hc _ hpos
        have hk := (hterm e he).1 (hz e he)
        rw [hep, wordsPossibleGivenResult_eq, List.countP_eq_length] at hk
        exact hk w2 hw2
      intro w1 hw1 w2 hw2
      exact same_result_of_mutually_possible state guess w1 w2 hs (hp5 w1 hw1) (hp5 w2 hw2) h0
        (hposs w1 hw1 w2 hw2) (hposs w2 hw2 w1 hw1)
    · intro hsame e he
      apply (hterm e he).2
      obtain ⟨b1, b2, b3⟩ := entry_bounds guess state pool hall e he
      have hc1 : e.2 = pool.countP (fun a => decide (getResultGivenAnswer guess a = e.1)) :=
        (hv e he).1
      have hpos : 0 < pool.countP
          (fun a => decide (getResultGivenAnswer guess a = e.1)) := by omega
      obtain ⟨a, ha, hae⟩ := List.countP_pos_iff.1 hpos
      have hae' : getResultGivenAnswer guess a = e.1 := of_decide_eq_true hae
      have hcount : pool.countP (fun a => decide (getResultGivenAnswer guess a = e.1)) =
          pool.length := by
        rw [List.countP_eq_length]
        intro w hw
        exact decide_eq_true ((hsame w hw a ha).trans hae')
      omega
  · intro e he
    obtain ⟨b1, b2, b3⟩ := entry_bounds guess state pool hall e he
    exact term_nonneg e.2 _ pool.length (Nat.le_trans b1 b2) b3

theorem getExpectedValue_nil {F : Type} [Zero F] [Add F] [Mul F] [Div F] [NatCast F]
    (log2 : F → F) (guess : List Char) (state : State) :
    getExpectedValueForGuess log2 guess state [] = 0 := rfl

theorem charAt_ne_marker (guess : List Char) (hg5 : guess.length = 5)
    (hgaz : ∀ c ∈ guess, 'a' ≤ c ∧ c ≤ 'z') (i : Nat) (hi : i < 5) : charAt guess i ≠ '0' := by
  intro h
  have hmem : charAt guess i ∈ guess := charAt_mem guess i (by rw [hg5]; exact hi)
  have := (hgaz _ hmem).1
  rw [h] at this
  exact absurd this (by decide)

/-! ## Present and absent letters after an update -/

theorem update_inter_eq_empty_iff (s : State) (guess : List Char) (result : List Result)
    (h : s.knownPresentLetters ∩ s.knownAbsentLetters = ∅) :
    (updateStateWithResult s guess result).knownPresentLetters ∩
        (updateStateWithResult s guess result).knownAbsentLetters = ∅ ↔
      ∀ c ∈ s.knownPresentLetters, c ∈ lettersAt guess result Result.Grey →
        c ∈ lettersAt guess result Result.Yellow ∨ c ∈ lettersAt guess result Result.Green := by
  have hd : ∀ c, c ∈ s.knownPresentLetters → c ∉ s.knownAbsentLetters := by
    intro c hp ha
    have : c ∈ s.knownPresentLetters ∩ s.knownAbsentLetters := Finset.mem_inter.2 ⟨hp, ha⟩
    rw [h] at this
    exact absurd this (Finset.not_mem_empty c)
  rw [Finset.eq_empty_iff_forall_not_mem]
  constructor
  · intro hall c hp hg
    by_contra hcon
    rw [not_or] at hcon
    apply hall c
    rw [Finset.mem_inter, update_mem_present, update_mem_absent]
    exact ⟨Or.inl hp, Or.inr hg, hcon.1, hcon.2⟩
  · intro hall c hc
    rw [Finset.mem_inter, update_mem_present, update_mem_absent] at hc
    obtain ⟨hp, ha, hy, hg⟩ := hc
    rcases hp with hp | hp
    · rcases ha with ha | ha
      · exact hd c hp ha
      · rcases hall c hp ha with h1 | h1
        · exact hy h1
        · exact hg h1
    · exact hy hp

theorem update_not_absent_of_yellow_or_green (s : State) (guess : List Char)
    (result : List Result) (i : Nat) (hi : i < 5)
    (h : result[i]? = some Result.Yellow ∨ result[i]? = some Result.Green) :
    charAt guess i ∉ (updateStateWithResult s guess result).knownAbsentLetters := by
  intro hmem
  rw [update_mem_absent] at hmem
  rcases h with h | h
  · exact hmem.2.1 ((mem_lettersAt _ _ _ _).2 ⟨i, hi, h, rfl⟩)
  · exact hmem.2.2 ((mem_lettersAt _ _ _ _).2 ⟨i, hi, h, rfl⟩)

theorem update_keeps_slot_fixed (s : State) (guess : List Char) (result : List Result)
    (hg5 : guess.length = 5) (hgaz : ∀ c ∈ guess, 'a' ≤ c ∧ c ≤ 'z')
    (i : Nat) (hi : i < 5) (h : charAt s.knownLetters i ≠ '0') :
    charAt (updateStateWithResult s guess result).knownLetters i ≠ '0' := by
  rw [update_charAt_knownLetters]
  split_ifs
  · exact charAt_ne_marker guess hg5 hgaz i hi
  · exact h

/-! ## The pool after a round -/

theorem foldl_copy_if (st : State) (pool acc : List (List Char)) :
    pool.foldl
      (fun newRemainingWords word =>
        if isWordPossibleGivenState st word then newRemainingWords ++ [word]
        else newRemainingWords) acc =
      acc ++ pool.filter (fun w => isWordPossibleGivenState st w) := by
  induction pool generalizing acc with
  | nil => simp
  | cons w pool ih =>
    rw [List.foldl_cons, ih, List.filter_cons]
    by_cases h : isWordPossibleGivenState st w = true
    · simp [h]
    · simp [h]

theorem copyIfPossible_eq_filter (st : State) (pool : List (List Char)) :
    copyIfPossible st pool = pool.filter (fun w => isWordPossibleGivenState st w) := by
  unfold copyIfPossible
  rw [foldl_copy_if, List.nil_append]

/-! ## The expected value and the entropy of the result partition -/

theorem sum_map_le_sum_map (t u : List Result × Nat → ℝ) (l : List (List Result × Nat))
    (h : ∀ e ∈ l, t e ≤ u e) : (l.map t).sum ≤ (l.map u).sum := by
  induction l with
  | nil => simp
  | cons e l ih =>
    rw [List.map_cons, List.sum_cons, List.map_cons, List.sum_cons]
    exact add_le_add (h e (List.mem_cons_self _ _))
      (ih (fun e' he' => h e' (List.mem_cons_of_mem _ he')))

theorem sum_snd_mapIncrement (m : List (List Result × Nat)) (key : List Result) :
    ((mapIncrement m key).map Prod.snd).sum = (m.map Prod.snd).sum + 1 := by
  induction m with
  | nil => simp [mapIncrement]
  | cons hd rest ih =>
    obtain ⟨k, v⟩ := hd
    simp only [mapIncrement]
    by_cases h1 : key = k
    · rw [if_pos h1]
      simp only [List.map_cons, List.sum_cons]
      omega
    · rw [if_neg h1]
      by_cases h2 : vecLt key k = true
      · rw [if_pos h2]
        simp only [List.map_cons, List.sum_cons]
        omega
      · rw [if_neg h2]
        simp only [List.map_cons, List.sum_cons] at ih ⊢
        omega

theorem sum_snd_foldl_mapIncrement (ks : List (List Result)) (m : List (List Result × Nat)) :
    ((ks.foldl mapIncrement m).map Prod.snd).sum = (m.map Prod.snd).sum + ks.length := by
  induction ks generalizing m with
  | nil => simp
  | cons k ks ih =>
    rw [List.foldl_cons, ih, sum_snd_mapIncrement, List.length_cons]
    omega

theorem sum_snd_resultFrequencyMap (guess : List Char) (pool : List (List Char)) :
    ((resultFrequencyMap guess pool).map Prod.snd).sum = pool.length := by
  rw [resultFrequencyMap_eq, sum_snd_foldl_mapIncrement]
  simp

theorem sum_map_weighted (l : List (List Result × Nat)) (n L : ℝ) :
    (l.map (fun e => (e.2 : ℝ) / n * L)).sum = (((l.map Prod.snd).sum : Nat) : ℝ) / n * L := by
  induction l with
  | nil => simp
  | cons e l ih =>
    rw [List.map_cons, List.sum_cons, ih, List.map_cons, List.sum_cons]
    push_cast
    ring

theorem getExpectedValue_le_entropy (guess : List Char) (state : State)
    (pool : List (List Char))
    (hall : ∀ w ∈ pool, isWordPossibleGivenState state w = true) :
    getExpectedValueForGuess (Real.logb 2) guess state pool ≤
      ((resultFrequencyMap guess pool).map (fun e =>
        (e.2 : ℝ) / (pool.length : ℝ) *
          Real.logb 2 ((pool.length : ℝ) / (e.2 : ℝ)))).sum := by
  rw [getExpectedValue_eq_sum]
  apply sum_map_le_sum_map
  intro e he
  obtain ⟨b1, b2, b3⟩ := entry_bounds guess state pool hall e he
  have hc0 : (0 : ℝ) < (e.2 : ℝ) := by exact_mod_cast b1
  have hk0 : (0 : ℝ) < (wordsPossibleGivenResult guess state pool e.1 : ℝ) := by
    exact_mod_cast Nat.lt_of_lt_of_le b1 b2
  have hn0 : (0 : ℝ) < (pool.length : ℝ) := by
    exact_mod_cast Nat.lt_of_lt_of_le b1 (Nat.le_trans b2 b3)
  have hck : (e.2 : ℝ) ≤ (wordsPossibleGivenResult guess state pool e.1 : ℝ) := by
    exact_mod_cast b2
  have hdiv : (pool.length : ℝ) / (wordsPossibleGivenResult guess state pool e.1 : ℝ) ≤
      (pool.length : ℝ) / (e.2 : ℝ) := (div_le_div_iff_of_pos_left hn0 hk0 hc0).2 hck
  have hlog := Real.logb_le_logb_of_le (by norm_num : (1 : ℝ) < 2) (div_pos hn0 hk0) hdiv
  exact mul_le_mul_of_nonneg_left hlog (le_of_lt (div_pos hc0 hn0))

theorem entropy_le_log (guess : List Char) (pool : List (List Char)) (hne : pool ≠ []) :
    ((resultFrequencyMap guess pool).map (fun e =>
        (e.2 : ℝ) / (pool.length : ℝ) *
          Real.logb 2 ((pool.length : ℝ) / (e.2 : ℝ)))).sum ≤
      Real.logb 2 (pool.length : ℝ) := by
  have hn : 0 < pool.length := List.length_pos.2 hne
  have hn0 : (0 : ℝ) < (pool.length : ℝ) := by exact_mod_cast hn
  have hle : ((resultFrequencyMap guess pool).map (fun e =>
        (e.2 : ℝ) / (pool.length : ℝ) *
          Real.logb 2 ((pool.length : ℝ) / (e.2 : ℝ)))).sum ≤
      ((resultFrequencyMap guess pool).map (fun e =>
        (e.2 : ℝ) / (pool.length : ℝ) * Real.logb 2 (pool.length : ℝ))).sum := by
    apply sum_map_le_sum_map
    intro e he
    obtain ⟨_, hv, _⟩ := resultFrequencyMap_counts guess pool
    have b1 : 1 ≤ e.2 := (hv e he).2
    have hc0 : (0 : ℝ) < (e.2 : ℝ) := by exact_mod_cast b1
    have hc1 : (1 : ℝ) ≤ (e.2 : ℝ) := by exact_mod_cast b1
    have hdiv : (pool.length : ℝ) / (e.2 : ℝ) ≤ (pool.length : ℝ) :=
      div_le_self (le_of_lt hn0) hc1
    have hlog := Real.logb_le_logb_of_le (by norm_num : (1 : ℝ) < 2) (div_pos hn0 hc0) hdiv
    exact mul_le_mul_of_nonneg_left hlog (le_of_lt (div_pos hc0 hn0))
  refine le_trans hle ?_
  rw [sum_map_weighted, sum_snd_resultFrequencyMap, div_self (ne_of_gt hn0), one_mul]

/-! ## The results collected from the threads -/

theorem foldl_thread_loop {β : Type} (g : Nat → β) (numThreads threadIndex : Nat)
    (l : List Nat) (acc : List β) :
    l.foldl (fun appended i =>
        if i % numThreads != threadIndex then appended else appended ++ [g i]) acc =
      acc ++ (l.filter (fun i => i % numThreads == threadIndex)).map g := by
  induction l generalizing acc with
  | nil => simp
  | cons j l ih =>
    rw [List.foldl_cons, ih, List.filter_cons]
    by_cases h : j % numThreads = threadIndex
    · simp [h]
    · simp [h]

theorem filter_lt_append_filter_eq (key : Nat → Nat) (M : Nat) (l : List Nat) :
    (l.filter (fun i => decide (key i < M)) ++ l.filter (fun i => key i == M)).Perm
      (l.filter (fun i => decide (key i < M + 1))) := by
  induction l with
  | nil => simp
  | cons j l ih =>
    rw [List.filter_cons, List.filter_cons, List.filter_cons]
    by_cases h1 : key j < M
    · have d1 : decide (key j < M) = true := decide_eq_true h1
      have d2 : (key j == M) = false := beq_false_of_ne (by omega)
      have d3 : decide (key j < M + 1) = true := decide_eq_true (by omega)
      rw [d1, d2, d3]
      simp only [if_true, Bool.false_eq_true, if_false, List.cons_append]
      exact List.Perm.cons j ih
    · by_cases h2 : key j = M
      · have d1 : decide (key j < M) = false := decide_eq_false h1
        have d2 : (key j == M) = true := beq_iff_eq.2 h2
        have d3 : decide (key j < M + 1) = true := decide_eq_true (by omega)
        rw [d1, d2, d3]
        simp only [if_true, Bool.false_eq_true, if_false]
        exact List.perm_middle.trans (List.Perm.cons j ih)
      · have d1 : decide (key j < M) = false := decide_eq_false h1
        have d2 : (key j == M) = false := beq_false_of_ne h2
        have d3 : decide (key j < M + 1) = false := decide_eq_false (by omega)
        rw [d1, d2, d3]
        simp only [Bool.false_eq_true, if_false]
        exact ih

theorem slices_flatten_perm {β : Type} (g : Nat → β) (key : Nat → Nat) (l : List Nat)
    (M : Nat) :
    (((List.range M).map (fun t => (l.filter (fun i => key i == t)).map g)).flatten).Perm
      ((l.filter (fun i => decide (key i < M))).map g) := by
  induction M with
  | zero => simp
  | succ M ih =>
    rw [List.range_succ, List.map_append, List.flatten_append]
    simp only [List.map_cons, List.map_nil, List.flatten_cons, List.flatten_nil,
      List.append_nil]
    refine (List.Perm.append_right _ ih).trans ?_
    rw [← List.map_append]
    exact (filter_lt_append_filter_eq key M l).map g

theorem collect_perm {α : Type} (schedule : List Nat) (pending : List (List α)) :
    (collect schedule pending).Perm pending.flatten := by
  induction schedule generalizing pending with
  | nil => exact List.Perm.refl _
  | cons t schedule ih =>
    unfold collect
    cases hp : pending.getD t [] with
    | nil => exact ih pending
    | cons a rest =>
      simp only
      have ht : t < pending.length := by
        by_contra hge
        rw [List.getD_eq_default _ _ (Nat.le_of_not_lt hge)] at hp
        exact List.noConfusion hp
      rw [List.getD_eq_getElem _ _ ht] at hp
      have hsplit : pending = pending.take t ++ (a :: rest) :: pending.drop (t + 1) := by
        rw [← hp]
        exact (List.take_append_drop t pending).symm.trans
          (by rw [List.drop_eq_getElem_cons ht])
      have hset : pending.set t rest = pending.take t ++ rest :: pending.drop (t + 1) := by
        rw [List.set_eq_take_append_cons_drop, if_pos ht]
      refine (List.Perm.cons a (ih (pending.set t rest))).trans ?_
      rw [hset]
      conv => rhs; rw [hsplit]
      simp only [List.flatten_append, List.flatten_cons, List.cons_append]
      exact List.perm_middle.symm

/-! ## Sorting and cutting the collected results -/

theorem resizeTo10_eq_take {α : Type} (l : List α) : resizeTo10 l = l.take 10 := by
  unfold resizeTo10
  split_ifs with h
  · rfl
  · exact (List.take_of_length_le (by omega)).symm

theorem slice_of_index (numThreads : Nat) (hN : 1 ≤ numThreads) (i : Nat) :
    ∃! t, t < numThreads ∧ i % numThreads = t :=
  ⟨i % numThreads, ⟨Nat.mod_lt i hN, rfl⟩, fun _ ht => ht.2.symm⟩

/-! ## The ranking for any score type

The ranking only compares scores. The lemmas below hold for every linearly
ordered type `F` standing for `float` and every function standing for
`std::log2`, so they do not depend on how rounding or a division by zero is
read. -/

theorem parallelFunc_eq_slice {F : Type} [Zero F] [Add F] [Mul F] [Div F] [NatCast F]
    (log2 : F → F) (numThreads : Nat) (state : State)
    (allWords remainingWords : List (List Char)) (threadIndex : Nat) :
    parallelFunc log2 numThreads state allWords remainingWords threadIndex =
      ((List.range allWords.length).filter (fun i => i % numThreads == threadIndex)).map
        (fun i => (allWords.getD i [],
          getExpectedValueForGuess log2 (allWords.getD i []) state remainingWords)) := by
  unfold parallelFunc
  rw [foldl_thread_loop (fun i => (allWords.getD i [],
    getExpectedValueForGuess log2 (allWords.getD i []) state remainingWords)),
    List.nil_append]

theorem map_getD_range_scores {β : Type} (f : List Char → β) (allWords : List (List Char)) :
    (List.range allWords.length).map (fun i => f (allWords.getD i [])) = allWords.map f := by
  apply List.ext_getElem
  · simp
  · intro i h1 h2
    simp only [List.length_map, List.length_range] at h1
    rw [List.getElem_map, List.getElem_map, List.getElem_range, List.getD_eq_getElem _ _ h1]

theorem expectedValues_perm_scores {F : Type} [Zero F] [Add F] [Mul F] [Div F] [NatCast F]
    (log2 : F → F) (numThreads : Nat) (hN : 1 ≤ numThreads) (schedule : List Nat)
    (state : State) (allWords remainingWords : List (List Char)) :
    (expectedValues log2 numThreads schedule state allWords remainingWords).Perm
      (allWords.map (fun w => (w, getExpectedValueForGuess log2 w state remainingWords))) := by
  unfold expectedValues
  refine (collect_perm _ _).trans ?_
  have hfun : (parallelFunc log2 numThreads state allWords remainingWords) =
      (fun t => ((List.range allWords.length).filter
        (fun i => (fun j => j % numThreads) i == t)).map
        (fun i => (allWords.getD i [],
          getExpectedValueForGuess log2 (allWords.getD i []) state remainingWords))) := by
    funext t
    exact parallelFunc_eq_slice log2 numThreads state allWords remainingWords t
  rw [hfun]
  refine (slices_flatten_perm _ (fun j => j % numThreads) _ numThreads).trans ?_
  have hall : (List.range allWords.length).filter
      (fun i => decide ((fun j => j % numThreads) i < numThreads)) =
      List.range allWords.length := by
    apply List.filter_eq_self.2
    intro i _
    exact decide_eq_true (Nat.mod_lt i hN)
  rw [hall, map_getD_range_scores (fun w =>
    (w, getExpectedValueForGuess log2 w state remainingWords))]

theorem isStdSort_exists {F : Type} [LinearOrder F] (input : List (List Char × F)) :
    ∃ sorted, IsStdSort input sorted := by
  let r : List Char × F → List Char × F → Prop := fun ahead behind => behind.2 ≤ ahead.2
  haveI : DecidableRel r := fun ahead behind => inferInstanceAs (Decidable (behind.2 ≤ ahead.2))
  haveI : IsTotal (List Char × F) r := ⟨fun a b => le_total b.2 a.2⟩
  haveI : IsTrans (List Char × F) r := ⟨fun _ _ _ hab hbc => le_trans hbc hab⟩
  refine ⟨List.insertionSort r input, List.perm_insertionSort r input, ?_⟩
  have hsorted : (List.insertionSort r input).Pairwise r := List.sorted_insertionSort r input
  exact hsorted.imp (fun h => not_lt.2 h)

theorem rankGuesses_produces {F : Type} [LinearOrder F] [Zero F] [Add F] [Mul F] [Div F]
    [NatCast F] (log2 : F → F) (numThreads : Nat) (schedule : List Nat) (state : State)
    (allWords remainingWords : List (List Char)) :
    ∃ ranking, rankGuesses log2 numThreads schedule state allWords remainingWords ranking := by
  obtain ⟨sorted, hs⟩ := isStdSort_exists
    (expectedValues log2 numThreads schedule state allWords remainingWords)
  exact ⟨resizeTo10 sorted, sorted, hs, rfl⟩

theorem mem_expectedValues {F : Type} [Zero F] [Add F] [Mul F] [Div F] [NatCast F]
    (log2 : F → F) (numThreads : Nat) (hN : 1 ≤ numThreads) (schedule : List Nat)
    (state : State) (allWords remainingWords : List (List Char)) (e : List Char × F)
    (he : e ∈ expectedValues log2 numThreads schedule state allWords remainingWords) :
    e.1 ∈ allWords ∧ e.2 = getExpectedValueForGuess log2 e.1 state remainingWords := by
  have hmem := (expectedValues_perm_scores log2 numThreads hN schedule state allWords
    remainingWords).mem_iff.1 he
  obtain ⟨w, hw, hwe⟩ := List.mem_map.1 hmem
  rw [← hwe]
  exact ⟨hw, rfl⟩

theorem rankGuesses_sorted_top {F : Type} [LinearOrder F] [Zero F] [Add F] [Mul F] [Div F]
    [NatCast F] (log2 : F → F) (numThreads : Nat) (hN : 1 ≤ numThreads) (schedule : List Nat)
    (state : State) (allWords remainingWords : List (List Char))
    (ranking : List (List Char × F))
    (h : rankGuesses log2 numThreads schedule state allWords remainingWords ranking) :
    ranking.length = min 10 allWords.length ∧
    ranking.Pairwise (fun ahead behind => behind.2 ≤ ahead.2) ∧
    (∀ e ∈ ranking,
      e ∈ expectedValues log2 numThreads schedule state allWords remainingWords ∧
      e.1 ∈ allWords ∧
      e.2 = getExpectedValueForGuess log2 e.1 state remainingWords) ∧
    ∃ leftOut,
      (ranking ++ leftOut).Perm
        (expectedValues log2 numThreads schedule state allWords remainingWords) ∧
      (∀ x ∈ leftOut, ∀ e ∈ ranking, x.2 ≤ e.2) ∧
      (∀ x ∈ leftOut, ∃ last, ranking.getLast? = some last ∧ x.2 ≤ last.2) := by
  obtain ⟨sorted, ⟨hperm, hpair⟩, hr⟩ := h
  rw [resizeTo10_eq_take] at hr
  have hlen : sorted.length = allWords.length := by
    rw [hperm.length_eq,
      (expectedValues_perm_scores log2 numThreads hN schedule state allWords
        remainingWords).length_eq,
      List.length_map]
  have hle : sorted.Pairwise (fun ahead behind => behind.2 ≤ ahead.2) :=
    hpair.imp (fun hn => not_lt.1 hn)
  have hsplit : sorted.take 10 ++ sorted.drop 10 = sorted := List.take_append_drop 10 sorted
  have hcross : ∀ x ∈ sorted.drop 10, ∀ e ∈ ranking, x.2 ≤ e.2 := by
    intro x hx e he
    rw [hr] at he
    rw [← hsplit] at hle
    exact (List.pairwise_append.1 hle).2.2 e he x hx
  refine ⟨?_, ?_, ?_, sorted.drop 10, ?_, hcross, ?_⟩
  · rw [hr, List.length_take, hlen]
  · rw [hr]
    exact hle.sublist (List.take_sublist 10 sorted)
  · intro e he
    rw [hr] at he
    have hin : e ∈ expectedValues log2 numThreads schedule state allWords remainingWords :=
      hperm.mem_iff.1 (List.mem_of_mem_take he)
    exact ⟨hin,
      mem_expectedValues log2 numThreads hN schedule state allWords remainingWords e hin⟩
  · rw [hr, hsplit]
    exact hperm
  · intro x hx
    have hne : ranking ≠ [] := by
      intro hnil
      have hlen0 : (sorted.take 10).length = 0 := by rw [← hr, hnil]; rfl
      rw [List.length_take] at hlen0
      have hs0 : sorted.length = 0 := by omega
      have hd : sorted.drop 10 = [] := by
        rw [List.length_eq_zero.1 hs0]; rfl
      rw [hd] at hx
      exact absurd hx (List.not_mem_nil x)
    exact ⟨ranking.getLast hne, List.getLast?_eq_getLast ranking hne,
      hcross x hx _ (List.getLast_mem hne)⟩

/-! ## The ranking with real scores -/

theorem parallelFunc_eq (numThreads : Nat) (state : State)
    (allWords remainingWords : List (List Char)) (threadIndex : Nat) :
    parallelFunc (Real.logb 2) numThreads state allWords remainingWords threadIndex =
      ((List.range allWords.length).filter (fun i => i % numThreads == threadIndex)).map
        (fun i => (allWords.getD i [],
          getExpectedValueForGuess (Real.logb 2) (allWords.getD i []) state remainingWords)) :=
  parallelFunc_eq_slice (Real.logb 2) numThreads state allWords remainingWords threadIndex

theorem expectedValues_perm (numThreads : Nat) (hN : 1 ≤ numThreads) (schedule : List Nat)
    (state : State) (allWords remainingWords : List (List Char)) :
    (expectedValues (Real.logb 2) numThreads schedule state allWords remainingWords).Perm
      (allWords.map (fun w =>
        (w, getExpectedValueForGuess (Real.logb 2) w state remainingWords))) :=
  expectedValues_perm_scores (Real.logb 2) numThreads hN schedule state allWords remainingWords

theorem rankGuesses_exists (numThreads : Nat) (schedule : List Nat) (state : State)
    (allWords remainingWords : List (List Char)) :
    ∃ ranking,
      rankGuesses (Real.logb 2) numThreads schedule state allWords remainingWords ranking :=
  rankGuesses_produces (Real.logb 2) numThreads schedule state allWords remainingWords

theorem rankGuesses_length (numThreads : Nat) (hN : 1 ≤ numThreads) (schedule : List Nat)
    (state : State) (allWords remainingWords : List (List Char))
    (ranking : List (List Char × ℝ))
    (h : rankGuesses (Real.logb 2) numThreads schedule state allWords remainingWords ranking) :
    ranking.length = min 10 allWords.length :=
  (rankGuesses_sorted_top (Real.logb 2) numThreads hN schedule state allWords remainingWords
    ranking h).1

end Wordle

open Wordle

/-- C1: the true answer is never eliminated by its own feedback. For every guess,
every answer and every state with which the answer is possible, the answer is
still possible after the state is updated with the result of the guess against
that answer. -/
theorem answer_never_eliminated_by_own_feedback (s : State) (guess answer : List Char)
    (h : isWordPossibleGivenState s answer = true) :
    isWordPossibleGivenState
      (updateStateWithResult s guess (getResultGivenAnswer guess answer)) answer = true :=
  answer_possible_after_update s guess answer h

/-- Witness of C1 at the initial state, guess `apple`, answer `angle`. -/
theorem answer_never_eliminated_by_own_feedback_witness :
    isWordPossibleGivenState {} "angle".toList = true ∧
    isWordPossibleGivenState
      (updateStateWithResult {} "apple".toList
        (getResultGivenAnswer "apple".toList "angle".toList)) "angle".toList = true :=
  ⟨by decide,
    answer_never_eliminated_by_own_feedback {} "apple".toList "angle".toList (by decide)⟩

/-- C2, as stated, fails: the word `aaaaa` is excluded by the state reached from
the initial one by guessing `azzzz` with five greys (the letter `a` is absent),
and is possible again after the guess `abcde` is given a yellow at its first
position: the update erases `a` from the absent letters. -/
theorem excluded_word_readmitted :
    isWordPossibleGivenState
      (updateStateWithResult {} "azzzz".toList
        [Result.Grey, Result.Grey, Result.Grey, Result.Grey, Result.Grey])
      "aaaaa".toList = false ∧
    isWordPossibleGivenState
      (updateStateWithResult
        (updateStateWithResult {} "azzzz".toList
          [Result.Grey, Result.Grey, Result.Grey, Result.Grey, Result.Grey])
        "abcde".toList
        [Result.Yellow, Result.Grey, Result.Grey, Result.Grey, Result.Grey])
      "aaaaa".toList = true := by
  decide

/-- C2, amended: an excluded word stays excluded when the feedback does not
contradict the state, that is when no absent letter of the state stands at a
yellow or green position of the guess and every green position has a slot that
is unconstrained or already holds the guessed letter. -/
theorem excluded_stays_excluded_under_compatible_feedback (s : State)
    (word guess : List Char) (result : List Result)
    (habs : ∀ c ∈ s.knownAbsentLetters,
      c ∉ lettersAt guess result Result.Yellow ∧ c ∉ lettersAt guess result Result.Green)
    (hfix : ∀ i, i < 5 → result[i]? = some Result.Green →
      charAt s.knownLetters i = '0' ∨ charAt s.knownLetters i = charAt guess i)
    (h : isWordPossibleGivenState s word = false) :
    isWordPossibleGivenState (updateStateWithResult s guess result) word = false :=
  excluded_stays_excluded s word guess result habs hfix h



/-- Witness of the amended C2: in the state with first slot `a` and absent letter
`z`, the word `zebra` is excluded, and stays excluded after the guess `apple`
with a green at its first position. -/
theorem excluded_stays_excluded_under_compatible_feedback_witness :
    (∀ c ∈ ({ knownLetters := "a0000".toList, knownAbsentLetters := {'z'} } :
          State).knownAbsentLetters,
      c ∉ lettersAt "apple".toList
          [Result.Green, Result.Grey, Result.Grey, Result.Grey, Result.Grey] Result.Yellow ∧
      c ∉ lettersAt "apple".toList
          [Result.Green, Result.Grey, Result.Grey, Result.Grey, Result.Grey] Result.Green) ∧
    isWordPossibleGivenState
      ({ knownLetters := "a0000".toList, knownAbsentLetters := {'z'} } : State)
      "zebra".toList = false ∧
    isWordPossibleGivenState
      (updateStateWithResult
        ({ knownLetters := "a0000".toList, knownAbsentLetters := {'z'} } : State)
        "apple".toList [Result.Green, Result.Grey, Result.Grey, Result.Grey, Result.Grey])
      "zebra".toList = false :=
  ⟨by decide, by decide,
    excluded_stays_excluded_under_compatible_feedback
      ({ knownLetters := "a0000".toList, knownAbsentLetters := {'z'} } : State)
      "zebra".toList "apple".toList
      [Result.Green, Result.Grey, Result.Grey, Result.Grey, Result.Grey]
      (by decide) (by decide) (by decide)⟩

/-- C3: the update has exactly the three-pass result. With `A`, `Y`, `G` the sets
of guess letters at grey, yellow and green positions, the new absent letters are
`((absent ∪ A) \ Y) \ G`, the new present letters are `present ∪ Y`, and slot
`i` of the known letters holds `guess[i]` at every green position and is
unchanged at every other position. It holds for every state with five slots, in
particular with 5-letter guesses and 5-outcome results. -/
theorem update_is_three_pass_result (s : State) (guess : List Char) (result : List Result)
    (hs : s.knownLetters.length = 5) :
    (updateStateWithResult s guess result).knownAbsentLetters =
      ((s.knownAbsentLetters ∪ lettersAt guess result Result.Grey) \
        lettersAt guess result Result.Yellow) \ lettersAt guess result Result.Green ∧
    (updateStateWithResult s guess result).knownPresentLetters =
      s.knownPresentLetters ∪ lettersAt guess result Result.Yellow ∧
    (updateStateWithResult s guess result).knownLetters.length = 5 ∧
    ∀ i, i < 5 →
      charAt (updateStateWithResult s guess result).knownLetters i =
        if result[i]? = some Result.Green then charAt guess i else charAt s.knownLetters i := by
  refine ⟨?_, ?_, ?_, ?_⟩
  · ext c
    rw [update_mem_absent]
    simp only [Finset.mem_sdiff, Finset.mem_union, and_assoc]
  · ext c
    rw [update_mem_present]
    simp only [Finset.mem_union]
  · rw [update_knownLetters_length, hs]
  · intro i hi
    rw [update_charAt_knownLetters, hs]
    simp only [hi, true_and, and_true]

/-- Witness of C3 at the initial state, guess `apple` and the result of `apple`
against `angle`. -/
theorem update_is_three_pass_result_witness :
    ({} : State).knownLetters.length = 5 ∧
    (updateStateWithResult {} "apple".toList
      [Result.Green, Result.Grey, Result.Grey, Result.Green, Result.Green]).knownAbsentLetters =
      (((({} : State).knownAbsentLetters ∪ lettersAt "apple".toList
          [Result.Green, Result.Grey, Result.Grey, Result.Green, Result.Green] Result.Grey) \
        lettersAt "apple".toList
          [Result.Green, Result.Grey, Result.Grey, Result.Green, Result.Green] Result.Yellow) \
        lettersAt "apple".toList
          [Result.Green, Result.Grey, Result.Grey, Result.Green, Result.Green] Result.Green) :=
  ⟨by decide,
    (update_is_three_pass_result {} "apple".toList
      [Result.Green, Result.Grey, Result.Grey, Result.Green, Result.Green] (by decide)).1⟩

/-- C4: a word is possible in a state exactly when (a) every slot of the known
letters that is not the marker `'0'` equals the letter of the word at that
position, (b) no absent letter occurs in the word, and (c) every present letter
occurs somewhere in the word. -/
theorem isWordPossible_iff_three_conditions (s : State) (word : List Char) :
    isWordPossibleGivenState s word = true ↔
      (∀ i, i < 5 → charAt s.knownLetters i ≠ '0' →
        charAt s.knownLetters i = charAt word i) ∧
      (∀ l ∈ s.knownAbsentLetters, l ∉ word) ∧
      (∀ l ∈ s.knownPresentLetters, l ∈ word) :=
  isWordPossible_iff s word

/-- C5: the result follows the per-position rule with no duplicate-letter
accounting. It has exactly five outcomes, and the outcome at each position `i`
in `0..4` is green if `guess[i] = answer[i]`, otherwise yellow if `guess[i]`
occurs anywhere in the answer, otherwise grey. -/
theorem getResult_follows_position_rule (guess answer : List Char) :
    (getResultGivenAnswer guess answer).length = 5 ∧
    ∀ i, i < 5 →
      (getResultGivenAnswer guess answer)[i]? =
        some (if charAt guess i = charAt answer i then Result.Green
          else if charAt guess i ∈ answer then Result.Yellow
          else Result.Grey) :=
  ⟨getResult_length guess answer, fun i hi => getResult_getElem? guess answer i hi⟩

/-- C6: the result of a word against itself is five greens. -/
theorem getResult_of_word_against_itself (w : List Char) :
    getResultGivenAnswer w w =
      [Result.Green, Result.Green, Result.Green, Result.Green, Result.Green] :=
  getResult_self w

/-- C7: no zero divisor in scoring. When every pool word is possible in the
state, every entry of the frequency map has `1 ≤ frequency ≤
wordsPossibleGivenResult`; and for every result `p` given by at least one pool
word, with `c` the number of pool words giving `p` and `k` the number of pool
words possible in the state updated with `p`, the map holds the entry `(p, c)`,
the inner loop counts `k`, and `k ≥ c ≥ 1`. -/
theorem scoring_divisor_at_least_frequency (guess : List Char) (state : State)
    (pool : List (List Char))
    (hall : ∀ w ∈ pool, isWordPossibleGivenState state w = true) :
    (∀ e ∈ resultFrequencyMap guess pool,
      1 ≤ e.2 ∧ e.2 ≤ wordsPossibleGivenResult guess state pool e.1) ∧
    ∀ p, (∃ a ∈ pool, getResultGivenAnswer guess a = p) →
      (p, pool.countP (fun a => decide (getResultGivenAnswer guess a = p))) ∈
        resultFrequencyMap guess pool ∧
      wordsPossibleGivenResult guess state pool p =
        pool.countP (fun w =>
          isWordPossibleGivenState (updateStateWithResult state guess p) w) ∧
      1 ≤ pool.countP (fun a => decide (getResultGivenAnswer guess a = p)) ∧
      pool.countP (fun a => decide (getResultGivenAnswer guess a = p)) ≤
        pool.countP (fun w =>
          isWordPossibleGivenState (updateStateWithResult state guess p) w) := by
  refine ⟨fun e he => ?_, fun p hp => ?_⟩
  · obtain ⟨h1, h2, _⟩ := entry_bounds guess state pool hall e he
    exact ⟨h1, h2⟩
  · obtain ⟨a, ha, hap⟩ := hp
    have hpos : 1 ≤ pool.countP (fun a => decide (getResultGivenAnswer guess a = p)) :=
      List.countP_pos_iff.2 ⟨a, ha, decide_eq_true hap⟩
    obtain ⟨_, hv, hc⟩ := resultFrequencyMap_counts guess pool
    obtain ⟨e, he, hep⟩ := hc p hpos
    have hval := (hv e he).1
    rw [hep] at hval
    have hmem : (p, pool.countP (fun a => decide (getResultGivenAnswer guess a = p))) ∈
        resultFrequencyMap guess pool := by
      have : e = (p, pool.countP (fun a => decide (getResultGivenAnswer guess a = p))) :=
        Prod.ext hep hval
      rw [← this]
      exact he
    refine ⟨hmem, wordsPossibleGivenResult_eq guess state pool p, hpos, ?_⟩
    rw [← wordsPossibleGivenResult_eq]
    exact frequency_le_wordsPossible guess state pool hall p

/-- Witness of C7 at the guess `apple`, the initial state and the pool
`angle`, `ankle`, `cable`, `apple`. -/
theorem scoring_divisor_at_least_frequency_witness :
    (∀ w ∈ ["angle".toList, "ankle".toList, "cable".toList, "apple".toList],
      isWordPossibleGivenState {} w = true) ∧
    ∀ e ∈ resultFrequencyMap "apple".toList
        ["angle".toList, "ankle".toList, "cable".toList, "apple".toList],
      1 ≤ e.2 ∧ e.2 ≤ wordsPossibleGivenResult "apple".toList {}
        ["angle".toList, "ankle".toList, "cable".toList, "apple".toList] e.1 :=
  ⟨by decide,
    (scoring_divisor_at_least_frequency "apple".toList {}
      ["angle".toList, "ankle".toList, "cable".toList, "apple".toList] (by decide)).1⟩

/-- C8: the expected value is never negative. For every guess, every state and
every pool whose words are all possible in the state (in particular every
non-empty one), the sum over the map entries of `(c/n) * log2 (n/k)`, read in
the reals with `n` the size of the pool, is at least `0`. -/
theorem expected_value_nonneg (guess : List Char) (state : State) (pool : List (List Char))
    (hall : ∀ w ∈ pool, isWordPossibleGivenState state w = true) :
    0 ≤ getExpectedValueForGuess (Real.logb 2) guess state pool :=
  getExpectedValue_nonneg guess state pool hall

/-- Witness of C8 at the guess `apple`, the initial state and the pool
`angle`, `ankle`, `cable`, `apple`. -/
theorem expected_value_nonneg_witness :
    ["angle".toList, "ankle".toList, "cable".toList, "apple".toList] ≠ [] ∧
    (∀ w ∈ ["angle".toList, "ankle".toList, "cable".toList, "apple".toList],
      isWordPossibleGivenState {} w = true) ∧
    0 ≤ getExpectedValueForGuess (Real.logb 2) "apple".toList {}
      ["angle".toList, "ankle".toList, "cable".toList, "apple".toList] :=
  ⟨by decide, by decide,
    expected_value_nonneg "apple".toList {}
      ["angle".toList, "ankle".toList, "cable".toList, "apple".toList] (by decide)⟩

/-- C9: the expected value is zero exactly for uninformative guesses. For every
5-letter guess over the letters `a`..`z`, every state with five slots and every
pool of 5-letter words all possible in the state (in particular every non-empty
one), the sum of `(c/n) * log2 (n/k)` read in the reals is `0` if and only if
all words of the pool give the same result for the guess. -/
theorem expected_value_zero_iff_same_result (guess : List Char) (state : State)
    (pool : List (List Char))
    (hg5 : guess.length = 5)
    (hgaz : ∀ c ∈ guess, 'a' ≤ c ∧ c ≤ 'z')
    (hs : state.knownLetters.length = 5)
    (hp5 : ∀ w ∈ pool, w.length = 5)
    (hall : ∀ w ∈ pool, isWordPossibleGivenState state w = true) :
    getExpectedValueForGuess (Real.logb 2) guess state pool = 0 ↔
      ∀ w1 ∈ pool, ∀ w2 ∈ pool,
        getResultGivenAnswer guess w1 = getResultGivenAnswer guess w2 :=
  getExpectedValue_eq_zero_iff guess state pool (charAt_ne_marker guess hg5 hgaz) hs hp5 hall

/-- Witness of C9 at the guess `apple`, the initial state and the pool `angle`,
`cable`, whose two words give different results: the expected value is not `0`. -/
theorem expected_value_zero_iff_same_result_witness :
    (∀ w ∈ ["angle".toList, "cable".toList], isWordPossibleGivenState {} w = true) ∧
    getExpectedValueForGuess (Real.logb 2) "apple".toList {}
      ["angle".toList, "cable".toList] ≠ 0 :=
  ⟨by decide, fun h =>
    absurd
      ((expected_value_zero_iff_same_result "apple".toList {} ["angle".toList, "cable".toList]
        (by decide) (by decide) (by decide) (by decide) (by decide)).1 h
        "angle".toList (by decide) "cable".toList (by decide))
      (by decide)⟩

/-- C10, as stated, fails: with the empty pool the function returns the number
`0`, the same ordinary value it computes for the guess `apple` on the non-empty
pool holding only `angle`; nothing distinguishes the empty pool. -/
theorem empty_pool_returns_ordinary_zero :
    getExpectedValueForGuess (Real.logb 2) "apple".toList {} [] = 0 ∧
    getExpectedValueForGuess (Real.logb 2) "apple".toList {} ["angle".toList] = 0 :=
  ⟨getExpectedValue_nil (Real.logb 2) "apple".toList {},
    (getExpectedValue_eq_zero_iff "apple".toList {} ["angle".toList]
      (by decide) (by decide) (by decide) (by decide)).2 (by decide)⟩

/-- C10, amended: for every guess and state, with the empty pool the frequency
map is empty, the loop over it runs no iteration and the function returns the
initial value `0` of the sum, whatever the number type and the logarithm. -/
theorem empty_pool_value_is_zero {F : Type} [Zero F] [Add F] [Mul F] [Div F] [NatCast F]
    (log2 : F → F) (guess : List Char) (state : State) :
    resultFrequencyMap guess [] = [] ∧
    getExpectedValueForGuess log2 guess state [] = 0 :=
  ⟨rfl, rfl⟩

/-- C11, as stated, fails: after the guess `abcde` with a yellow on `a` the
present and absent letters are disjoint, and after the next guess `axxxx` with
five greys the letter `a` is both present and absent. -/
theorem present_letter_becomes_absent :
    (updateStateWithResult {} "abcde".toList
        [Result.Yellow, Result.Grey, Result.Grey, Result.Grey, Result.Grey]).knownPresentLetters ∩
      (updateStateWithResult {} "abcde".toList
        [Result.Yellow, Result.Grey, Result.Grey, Result.Grey, Result.Grey]).knownAbsentLetters
      = ∅ ∧
    'a' ∈
      (updateStateWithResult
        (updateStateWithResult {} "abcde".toList
          [Result.Yellow, Result.Grey, Result.Grey, Result.Grey, Result.Grey])
        "axxxx".toList
        [Result.Grey, Result.Grey, Result.Grey, Result.Grey, Result.Grey]).knownPresentLetters ∩
      (updateStateWithResult
        (updateStateWithResult {} "abcde".toList
          [Result.Yellow, Result.Grey, Result.Grey, Result.Grey, Result.Grey])
        "axxxx".toList
        [Result.Grey, Result.Grey, Result.Grey, Result.Grey, Result.Grey]).knownAbsentLetters := by
  decide

/-- C11, amended: from a state whose present and absent letters are disjoint,
the updated state has them disjoint exactly when every present letter of the old
state that stands at a grey position of the guess also stands at a yellow or a
green position of it. -/
theorem present_absent_disjoint_iff (s : State) (guess : List Char) (result : List Result)
    (h : s.knownPresentLetters ∩ s.knownAbsentLetters = ∅) :
    (updateStateWithResult s guess result).knownPresentLetters ∩
        (updateStateWithResult s guess result).knownAbsentLetters = ∅ ↔
      ∀ c ∈ s.knownPresentLetters, c ∈ lettersAt guess result Result.Grey →
        c ∈ lettersAt guess result Result.Yellow ∨ c ∈ lettersAt guess result Result.Green :=
  update_inter_eq_empty_iff s guess result h

/-- Witness of the amended C11: in the state with present letter `e`, the guess
`geese` with greys on its first two `e` and a green on the last keeps the
present and absent letters disjoint. -/
theorem present_absent_disjoint_iff_witness :
    ({ knownPresentLetters := {'e'} } : State).knownPresentLetters ∩
      ({ knownPresentLetters := {'e'} } : State).knownAbsentLetters = ∅ ∧
    (updateStateWithResult ({ knownPresentLetters := {'e'} } : State) "geese".toList
        [Result.Grey, Result.Grey, Result.Grey, Result.Grey, Result.Green]).knownPresentLetters ∩
      (updateStateWithResult ({ knownPresentLetters := {'e'} } : State) "geese".toList
        [Result.Grey, Result.Grey, Result.Grey, Result.Grey, Result.Green]).knownAbsentLetters
      = ∅ :=
  ⟨by decide,
    (present_absent_disjoint_iff ({ knownPresentLetters := {'e'} } : State) "geese".toList
      [Result.Grey, Result.Grey, Result.Grey, Result.Grey, Result.Green] (by decide)).2
      (by decide)⟩

/-- C12: present and fixed override absent within one guess. For every state,
guess and result, the guess letter at any yellow or green position `0..4` is
not an absent letter of the updated state, whatever other positions hold the
same letter and whether or not it was absent before. -/
theorem yellow_or_green_letter_not_absent (s : State) (guess : List Char)
    (result : List Result) (i : Nat) (hi : i < 5)
    (h : result[i]? = some Result.Yellow ∨ result[i]? = some Result.Green) :
    charAt guess i ∉ (updateStateWithResult s guess result).knownAbsentLetters :=
  update_not_absent_of_yellow_or_green s guess result i hi h

/-- Witness of C12: the letter `e` is absent before, stands at two grey positions
of `geese` and at its green last position, and is not absent afterwards. -/
theorem yellow_or_green_letter_not_absent_witness :
    'e' ∈ ({ knownAbsentLetters := {'e'} } : State).knownAbsentLetters ∧
    charAt "geese".toList 4 ∉
      (updateStateWithResult ({ knownAbsentLetters := {'e'} } : State) "geese".toList
        [Result.Grey, Result.Grey, Result.Grey, Result.Grey, Result.Green]).knownAbsentLetters :=
  ⟨by decide,
    yellow_or_green_letter_not_absent ({ knownAbsentLetters := {'e'} } : State) "geese".toList
      [Result.Grey, Result.Grey, Result.Grey, Result.Grey, Result.Green] 4 (by decide)
      (Or.inr (by decide))⟩

/-- C16: the pool only shrinks and stays consistent. After a round the state is
the updated state and the new pool is the previous pool filtered, in order, by
possibility in the updated state: it is a sublist of the previous pool, holds
exactly its words that are possible in the updated state, and is no longer. -/
theorem pool_after_round_is_filtered (state : State) (remainingWords : List (List Char))
    (guessedWord : List Char) (result : List Result) :
    (mainRound state remainingWords guessedWord result).1 =
      updateStateWithResult state guessedWord result ∧
    (mainRound state remainingWords guessedWord result).2 =
      remainingWords.filter (fun w =>
        isWordPossibleGivenState (updateStateWithResult state guessedWord result) w) ∧
    ((mainRound state remainingWords guessedWord result).2).Sublist remainingWords ∧
    (∀ w, w ∈ (mainRound state remainingWords guessedWord result).2 ↔
      w ∈ remainingWords ∧
        isWordPossibleGivenState (mainRound state remainingWords guessedWord result).1 w
          = true) ∧
    ((mainRound state remainingWords guessedWord result).2).length ≤ remainingWords.length := by
  have h1 : (mainRound state remainingWords guessedWord result).1 =
      updateStateWithResult state guessedWord result := rfl
  have h2 : (mainRound state remainingWords guessedWord result).2 =
      remainingWords.filter (fun w =>
        isWordPossibleGivenState (updateStateWithResult state guessedWord result) w) :=
    copyIfPossible_eq_filter (updateStateWithResult state guessedWord result) remainingWords
  rw [h1, h2]
  refine ⟨rfl, rfl, List.filter_sublist _, ?_, List.length_filter_le _ _⟩
  intro w
  rw [List.mem_filter]

/-- C17: a fixed slot is never unfixed. For every state, every 5-letter guess
over the letters `a`..`z` and every result, each slot `0..4` that is not the
marker `'0'` before the update is not the marker after it. -/
theorem fixed_slot_stays_fixed (s : State) (guess : List Char) (result : List Result)
    (hg5 : guess.length = 5) (hgaz : ∀ c ∈ guess, 'a' ≤ c ∧ c ≤ 'z')
    (i : Nat) (hi : i < 5) (h : charAt s.knownLetters i ≠ '0') :
    charAt (updateStateWithResult s guess result).knownLetters i ≠ '0' :=
  update_keeps_slot_fixed s guess result hg5 hgaz i hi h

/-- Witness of C17: the first slot holds `a` and the guess `crane` has a green at
its first position; the slot then holds `c`. -/
theorem fixed_slot_stays_fixed_witness :
    charAt ({ knownLetters := "a0000".toList } : State).knownLetters 0 ≠ '0' ∧
    charAt (updateStateWithResult ({ knownLetters := "a0000".toList } : State) "crane".toList
      [Result.Green, Result.Grey, Result.Grey, Result.Grey, Result.Grey]).knownLetters 0 ≠ '0' :=
  ⟨by decide,
    fixed_slot_stays_fixed ({ knownLetters := "a0000".toList } : State) "crane".toList
      [Result.Green, Result.Grey, Result.Grey, Result.Grey, Result.Grey]
      (by decide) (by decide) 0 (by decide) (by decide)⟩

/-- C18, as stated, fails: the result of `apple` against `angle` is not green,
green, grey, grey, green. -/
theorem apple_angle_not_as_stated :
    getResultGivenAnswer "apple".toList "angle".toList ≠
      [Result.Green, Result.Green, Result.Grey, Result.Grey, Result.Green] := by
  decide

/-- C18, amended: the result of `apple` against `angle` is green, grey, grey,
green, green (`a`, `l` and `e` match their positions, `p` does not occur). -/
theorem apple_angle_result :
    getResultGivenAnswer "apple".toList "angle".toList =
      [Result.Green, Result.Grey, Result.Grey, Result.Green, Result.Green] := by
  decide

/-- C20: the divisor is only safe for pools possible in the state. With the
absent letter `z`, the guess `apple` and the pool holding only `zzzzz`, which is
not possible in the state, the frequency map has the entry of five greys and no
pool word is possible after the update: `wordsPossibleGivenResult` is `0`. -/
theorem zero_divisor_with_impossible_pool_word :
    ∃ (guess : List Char) (state : State) (pool : List (List Char)),
      pool ≠ [] ∧
      (∃ w ∈ pool, isWordPossibleGivenState state w = false) ∧
      ∃ e ∈ resultFrequencyMap guess pool,
        wordsPossibleGivenResult guess state pool e.1 = 0 :=
  ⟨"apple".toList, { knownAbsentLetters := {'z'} }, ["zzzzz".toList], by decide,
    ⟨"zzzzz".toList, by decide, by decide⟩,
    ⟨([Result.Grey, Result.Grey, Result.Grey, Result.Grey, Result.Grey], 1),
      by decide, by decide⟩⟩

/-- C19: the score never exceeds the entropy of the result partition. For every
guess, state and non-empty pool whose words are all possible in the state, read
in the reals, the sum of `(c/n) * log2 (n/k)` is at most the sum of
`(c/n) * log2 (n/c)`, which is at most `log2 n`, because every map entry has
`c ≤ k`; and `k` can exceed `c`: for the guess `apple`, the initial state and the
pool `maple`, `ample`, the result of `maple` has `c = 1` and `k = 2`. -/
theorem score_at_most_partition_entropy (guess : List Char) (state : State)
    (pool : List (List Char)) (hne : pool ≠ [])
    (hall : ∀ w ∈ pool, isWordPossibleGivenState state w = true) :
    getExpectedValueForGuess (Real.logb 2) guess state pool ≤
      ((resultFrequencyMap guess pool).map (fun e =>
        (e.2 : ℝ) / (pool.length : ℝ) *
          Real.logb 2 ((pool.length : ℝ) / (e.2 : ℝ)))).sum ∧
    ((resultFrequencyMap guess pool).map (fun e =>
        (e.2 : ℝ) / (pool.length : ℝ) *
          Real.logb 2 ((pool.length : ℝ) / (e.2 : ℝ)))).sum ≤
      Real.logb 2 (pool.length : ℝ) ∧
    (∀ e ∈ resultFrequencyMap guess pool,
      e.2 ≤ wordsPossibleGivenResult guess state pool e.1) ∧
    ((∀ w ∈ ["maple".toList, "ample".toList], isWordPossibleGivenState {} w = true) ∧
      (getResultGivenAnswer "apple".toList "maple".toList, 1) ∈
        resultFrequencyMap "apple".toList ["maple".toList, "ample".toList] ∧
      wordsPossibleGivenResult "apple".toList {} ["maple".toList, "ample".toList]
        (getResultGivenAnswer "apple".toList "maple".toList) = 2) :=
  ⟨getExpectedValue_le_entropy guess state pool hall,
    entropy_le_log guess pool hne,
    fun e he => (entry_bounds guess state pool hall e he).2.1,
    by decide, by decide, by decide⟩

/-- Witness of C19 at the guess `apple`, the initial state and the pool `maple`,
`ample`. -/
theorem score_at_most_partition_entropy_witness :
    ["maple".toList, "ample".toList] ≠ [] ∧
    (∀ w ∈ ["maple".toList, "ample".toList], isWordPossibleGivenState {} w = true) ∧
    getExpectedValueForGuess (Real.logb 2) "apple".toList {}
        ["maple".toList, "ample".toList] ≤
      Real.logb 2 (["maple".toList, "ample".toList].length : ℝ) :=
  ⟨by decide, by decide,
    le_trans
      (score_at_most_partition_entropy "apple".toList {} ["maple".toList, "ample".toList]
        (by decide) (by decide)).1
      (score_at_most_partition_entropy "apple".toList {} ["maple".toList, "ample".toList]
        (by decide) (by decide)).2.1⟩

/-- C13: the ranking has exactly `min 10 n` entries for `n` guessable words. For
every worker count at least one, every schedule of the threads, state and pool,
lines 164-201 of `guess` produce a ranking, and every ranking they can produce
has length `min 10 n`; with fewer than ten words it has exactly `n` entries. -/
theorem ranking_has_min_ten_entries (numThreads : Nat) (hN : 1 ≤ numThreads)
    (schedule : List Nat) (state : State) (allWords remainingWords : List (List Char)) :
    (∃ ranking,
      rankGuesses (Real.logb 2) numThreads schedule state allWords remainingWords ranking) ∧
    ∀ ranking,
      rankGuesses (Real.logb 2) numThreads schedule state allWords remainingWords ranking →
      ranking.length = min 10 allWords.length ∧
      (allWords.length < 10 → ranking.length = allWords.length) := by
  refine ⟨rankGuesses_exists numThreads schedule state allWords remainingWords, ?_⟩
  intro ranking h
  have hlen := rankGuesses_length numThreads hN schedule state allWords remainingWords ranking h
  refine ⟨hlen, fun hlt => ?_⟩
  rw [hlen]
  omega

/-- Witness of C13 with two threads, four guessable words and a pool of three. -/
theorem ranking_has_min_ten_entries_witness :
    1 ≤ 2 ∧
    ∃ ranking,
      rankGuesses (Real.logb 2) 2 [1, 0, 1] {}
        ["apple".toList, "angle".toList, "ankle".toList, "cable".toList]
        ["angle".toList, "ankle".toList, "cable".toList] ranking ∧
      ranking.length = 4 :=
  ⟨by decide,
    (ranking_has_min_ten_entries 2 (by decide) [1, 0, 1] {}
      ["apple".toList, "angle".toList, "ankle".toList, "cable".toList]
      ["angle".toList, "ankle".toList, "cable".toList]).1.elim
      (fun ranking h => ⟨ranking, h,
        ((ranking_has_min_ten_entries 2 (by decide) [1, 0, 1] {}
          ["apple".toList, "angle".toList, "ankle".toList, "cable".toList]
          ["angle".toList, "ankle".toList, "cable".toList]).2 ranking h).1⟩)⟩

/-- C14: the ranking holds the top entries in descending score order. For every
worker count at least one and every schedule, a ranking is produced, and every
ranking that can be produced has `min 10 n` entries for `n` guessable words,
has non-increasing scores, each of its entries is a collected result
`(w, getExpectedValueForGuess w state pool)` of a guessable word `w`, and the
collected results left out of it score no more than any entry of the ranking;
whenever a result is left out the ranking has a last entry, and the result
scores no more than it. The scores are of any linearly ordered type `F`, with
any reading of the arithmetic and of `log2`. -/
theorem ranking_is_sorted_top {F : Type} [LinearOrder F] [Zero F] [Add F] [Mul F] [Div F]
    [NatCast F] (log2 : F → F) (numThreads : Nat) (hN : 1 ≤ numThreads)
    (schedule : List Nat) (state : State) (allWords remainingWords : List (List Char)) :
    (∃ ranking, rankGuesses log2 numThreads schedule state allWords remainingWords ranking) ∧
    ∀ ranking,
      rankGuesses log2 numThreads schedule state allWords remainingWords ranking →
      ranking.length = min 10 allWords.length ∧
      ranking.Pairwise (fun ahead behind => behind.2 ≤ ahead.2) ∧
      (∀ e ∈ ranking,
        e ∈ expectedValues log2 numThreads schedule state allWords remainingWords ∧
        e.1 ∈ allWords ∧
        e.2 = getExpectedValueForGuess log2 e.1 state remainingWords) ∧
      ∃ leftOut,
        (ranking ++ leftOut).Perm
          (expectedValues log2 numThreads schedule state allWords remainingWords) ∧
        (∀ x ∈ leftOut, ∀ e ∈ ranking, x.2 ≤ e.2) ∧
        (∀ x ∈ leftOut, ∃ last, ranking.getLast? = some last ∧ x.2 ≤ last.2) :=
  ⟨rankGuesses_produces log2 numThreads schedule state allWords remainingWords,
    fun ranking h =>
      rankGuesses_sorted_top log2 numThreads hN schedule state allWords remainingWords
        ranking h⟩

/-- Witness of C14 with two threads, four guessable words, a pool of three and
real scores: a ranking is produced, it has four entries and they are in
non-increasing score order. -/
theorem ranking_is_sorted_top_witness :
    1 ≤ 2 ∧
    ∃ ranking,
      rankGuesses (Real.logb 2) 2 [1, 0, 1] {}
        ["apple".toList, "angle".toList, "ankle".toList, "cable".toList]
        ["angle".toList, "ankle".toList, "cable".toList] ranking ∧
      ranking.length = 4 ∧
      ranking.Pairwise (fun ahead behind => behind.2 ≤ ahead.2) :=
  ⟨by decide,
    (ranking_is_sorted_top (Real.logb 2) 2 (by decide) [1, 0, 1] {}
      ["apple".toList, "angle".toList, "ankle".toList, "cable".toList]
      ["angle".toList, "ankle".toList, "cable".toList]).1.elim
      (fun ranking h => ⟨ranking, h,
        ((ranking_is_sorted_top (Real.logb 2) 2 (by decide) [1, 0, 1] {}
          ["apple".toList, "angle".toList, "ankle".toList, "cable".toList]
          ["angle".toList, "ankle".toList, "cable".toList]).2 ranking h).1,
        ((ranking_is_sorted_top (Real.logb 2) 2 (by decide) [1, 0, 1] {}
          ["apple".toList, "angle".toList, "ankle".toList, "cable".toList]
          ["angle".toList, "ankle".toList, "cable".toList]).2 ranking h).2.1⟩)⟩

/-- C15: the worker count does not change what is scored. For every worker
count `N` at least one, every index of the guessable words lies in exactly one
slice `i % N = t` with `t < N`, thread `t` appends the results of the indices
of its slice in order, and whatever the schedules the results collected are a
rearrangement of `(w, getExpectedValueForGuess w state pool)` over all
guessable words `w`, hence of the results collected with a single worker. -/
theorem worker_count_keeps_collected_results (numThreads : Nat) (hN : 1 ≤ numThreads)
    (schedule schedule1 : List Nat) (state : State)
    (allWords remainingWords : List (List Char)) :
    (∀ i, i < allWords.length → ∃! t, t < numThreads ∧ i % numThreads = t) ∧
    (∀ t, parallelFunc (Real.logb 2) numThreads state allWords remainingWords t =
      ((List.range allWords.length).filter (fun i => i % numThreads == t)).map
        (fun i => (allWords.getD i [],
          getExpectedValueForGuess (Real.logb 2) (allWords.getD i []) state remainingWords))) ∧
    (expectedValues (Real.logb 2) numThreads schedule state allWords remainingWords).Perm
      (allWords.map (fun w =>
        (w, getExpectedValueForGuess (Real.logb 2) w state remainingWords))) ∧
    (expectedValues (Real.logb 2) 1 schedule1 state allWords remainingWords).Perm
      (expectedValues (Real.logb 2) numThreads schedule state allWords remainingWords) :=
  ⟨fun i _ => slice_of_index numThreads hN i,
    fun t => parallelFunc_eq numThreads state allWords remainingWords t,
    expectedValues_perm numThreads hN schedule state allWords remainingWords,
    (expectedValues_perm 1 (Nat.le_refl 1) schedule1 state allWords remainingWords).trans
      (expectedValues_perm numThreads hN schedule state allWords remainingWords).symm⟩

/-- Witness of C15 with two threads against one, four guessable words and a pool
of three. -/
theorem worker_count_keeps_collected_results_witness :
    1 ≤ 2 ∧
    (expectedValues (Real.logb 2) 1 [] {}
        ["apple".toList, "angle".toList, "ankle".toList, "cable".toList]
        ["angle".toList, "ankle".toList, "cable".toList]).Perm
      (expectedValues (Real.logb 2) 2 [1, 0, 1] {}
        ["apple".toList, "angle".toList, "ankle".toList, "cable".toList]
        ["angle".toList, "ankle".toList, "cable".toList]) :=
  ⟨by decide,
    (worker_count_keeps_collected_results 2 (by decide) [1, 0, 1] [] {}
      ["apple".toList, "angle".toList, "ankle".toList, "cable".toList]
      ["angle".toList, "ankle".toList, "cable".toList]).2.2.2⟩
